import Mathlib

/-!
Shallow embedding of the Cloudflare nodejs wrappers of the
serverless-benchmarks repository: the path polyfill, the node path helpers
used by the storage wrapper, the storage and nosql wrappers, the worker
fetch handlers, the container server and the fs polyfill, as executable
Lean definitions, together with theorems settling the specification claims.

Modelling conventions: JS strings are lists of characters, JS byte buffers
are lists of naturals, JS numbers are exact rationals (the double rounding
of the runtime is not modelled; only integrality and finiteness of parsed
numbers matter to the claims, and the finiteness cutoff of doubles is kept
exactly), JSON objects are ordered association lists matching JS key
insertion order with in-place overwrite.
-/

namespace SBS

abbrev Chars := List Char

abbrev Bytes := List Nat

def str2c (s : String) : Chars := s.data

/-- JS String.prototype.split with a one-character separator: the empty
string splits to one empty group, a separator at either end yields an
empty group there. -/
def splitCh (sep : Char) : Chars → List Chars
  | [] => [[]]
  | c :: rest =>
    match splitCh sep rest with
    | [] => [[c]]
    | g :: gs => if c = sep then [] :: g :: gs else (c :: g) :: gs

/-- JS Array.prototype.join with a one-character separator. -/
def interc (sep : Char) : List Chars → Chars
  | [] => []
  | [s] => s
  | s :: s2 :: ss => s ++ sep :: interc sep (s2 :: ss)

/-- One step of the segment normalizer. With allowUp = false this is the
body of the loop of normalizeSegments in path-polyfill.js (a .. segment
pops the previous segment when possible and is otherwise dropped); with
allowUp = true a .. that cannot pop is kept, which is the behaviour of the
internal normalizer of node path on relative paths. -/
def normStep (allowUp : Bool) (out : List Chars) (seg : Chars) : List Chars :=
  if seg = [] ∨ seg = ['.'] then out
  else if seg = ['.', '.'] then
    if out ≠ [] ∧ out.getLast? ≠ some ['.', '.'] then out.dropLast
    else if allowUp then out ++ [seg] else out
  else out ++ [seg]

def normSegs (allowUp : Bool) (segs : List Chars) : List Chars :=
  segs.foldl (normStep allowUp) []

/-- normalizeSegments from path-polyfill.js. -/
def normalizeSegments (segs : List Chars) : List Chars := normSegs false segs

/-- The replace of every backslash by a forward slash done on each part in
the resolve of path-polyfill.js. -/
def jsReplaceBackslash (cs : Chars) : Chars :=
  cs.map (fun c => if c = '\\' then '/' else c)

/-- Splitting a part on slashes and keeping the nonempty segments, as the
inner loop of the resolve of path-polyfill.js does. -/
def nonemptySegs (cs : Chars) : List Chars :=
  (splitCh '/' cs).filter (fun s => s ≠ [])

/-- The main loop of the resolve of path-polyfill.js: the argument list is
processed from the last argument backwards, empty parts are skipped, and
the loop stops at the first part that (after backslash replacement) starts
with a slash; the collected raw segments are returned in forward order.
The argument here is the reversed argument list. -/
def polyCollect : List Chars → List Chars
  | [] => []
  | p :: rest =>
    if p = [] then polyCollect rest
    else
      let part := jsReplaceBackslash p
      if part.head? = some '/' then nonemptySegs (part.drop 1)
      else polyCollect rest ++ nonemptySegs part

/-- resolve from path-polyfill.js on character lists. -/
def pathResolveL (input : List Chars) : Chars :=
  if input = [] then ['/']
  else '/' :: interc '/' (normalizeSegments (polyCollect input.reverse))

/-- resolve from path-polyfill.js. -/
def resolve (input : List String) : String :=
  ⟨pathResolveL (input.map String.data)⟩

/-- node path.posix.normalize: used by path.join. The segment list of the
path is normalized (with .. kept above root only on relative paths), and
root slash and trailing slash are re-attached. -/
def nodeNormalize (p : Chars) : Chars :=
  if p = [] then ['.']
  else
    let isAbs : Bool := p.head? = some '/'
    let trail : Bool := p.getLast? = some '/'
    let segs := normSegs (!isAbs) (splitCh '/' p)
    let core := interc '/' segs
    if core = [] then
      if isAbs then ['/'] else if trail then ['.', '/'] else ['.']
    else
      let core2 := if trail then core ++ ['/'] else core
      if isAbs then '/' :: core2 else core2

/-- node path.posix.join restricted to two arguments, as the storage
wrapper calls it: empty arguments are dropped, the rest joined with a
slash and normalized. -/
def nodeJoin2 (a b : Chars) : Chars :=
  if a = [] ∧ b = [] then ['.']
  else if a = [] then nodeNormalize b
  else if b = [] then nodeNormalize a
  else nodeNormalize (a ++ '/' :: b)

/-- node path.posix.resolve with a single argument and current directory
the root, as it behaves inside the Workers runtime: the result is the
absolute normalized form of the argument. -/
def nodeResolve1 (p : Chars) : Chars :=
  '/' :: interc '/' (normSegs false (splitCh '/' p))

structure ParsedPath where
  dir : Chars
  name : Chars
  ext : Chars
deriving Repr, DecidableEq

/-- node path.posix.parse, restricted to the dir, name and ext fields the
storage wrapper uses. The base name is the part after the last slash with
trailing slashes ignored; the extension starts at the last dot of the base
name unless that dot is its first character or the base name is the
double-dot segment. -/
def nodeParse (p : Chars) : ParsedPath :=
  if p = [] then ⟨[], [], []⟩
  else
    let isAbs : Bool := p.head? = some '/'
    let revNT := p.reverse.dropWhile (fun c => c = '/')
    let baseRev := revNT.takeWhile (fun c => c ≠ '/')
    let restRev := revNT.dropWhile (fun c => c ≠ '/')
    let base := baseRev.reverse
    let dirRaw := (restRev.drop 1).reverse
    let dir :=
      if restRev = [] then (if isAbs then ['/'] else [])
      else if dirRaw = [] then (if isAbs then ['/'] else [])
      else dirRaw
    let afterDotRev := baseRev.takeWhile (fun c => c ≠ '.')
    if afterDotRev.length = baseRev.length then ⟨dir, base, []⟩
    else
      let i := baseRev.length - afterDotRev.length - 1
      if i = 0 ∨ base = ['.', '.'] then ⟨dir, base, []⟩
      else ⟨dir, base.take i, base.drop i⟩

/-! JSON values and JS objects. An object is an ordered association list;
assigning to an existing key overwrites in place, assigning to a fresh key
appends, matching JS property insertion order. The nan value stands for
the JS NaN, which has the number type. -/

inductive JVal where
  | null
  | bool (b : Bool)
  | num (q : ℚ)
  | nan
  | str (s : Chars)
  | obj (fields : List (Chars × JVal))
  | arr (elems : List JVal)

abbrev JObj := List (Chars × JVal)

/-- Lookup in an ordered association list (a JS object or a key-value
store). -/
def getKV {β : Type} (m : List (Chars × β)) (k : Chars) : Option β :=
  (m.find? (fun p => p.1 = k)).map (fun p => p.2)

/-- Assignment in an ordered association list: overwrite in place when the
key exists, append otherwise; JS property-assignment semantics. -/
def setKV {β : Type} (m : List (Chars × β)) (k : Chars) (v : β) : List (Chars × β) :=
  if m.any (fun p => p.1 = k) then
    m.map (fun p => if p.1 = k then (k, v) else p)
  else m ++ [(k, v)]

def getF (o : JObj) (k : Chars) : Option JVal := getKV o k

def setF (o : JObj) (k : Chars) (v : JVal) : JObj := setKV o k v

def keysOf (o : JObj) : List Chars := o.map (fun p => p.1)

def hasKeyF (o : JObj) (k : Chars) : Bool := o.any (fun p => p.1 = k)

/-- JS truthiness of a value. -/
def truthy : JVal → Bool
  | .null => false
  | .bool b => b
  | .num q => q ≠ 0
  | .nan => false
  | .str s => s ≠ []
  | .obj _ => true
  | .arr _ => true

def truthyOpt : Option JVal → Bool
  | none => false
  | some v => truthy v

/-- JS property read on an arbitrary value; none stands for undefined. -/
def jsGet (v : JVal) (k : Chars) : Option JVal :=
  match v with
  | .obj fields => getF fields k
  | _ => none

/-! JS number and string primitives used by the handlers. -/

/-- JS whitespace as trimmed by Number and parseInt (the ASCII whitespace
characters plus no-break space and the byte order mark; the remaining
unicode space characters are not modelled). -/
def isJsWs (c : Char) : Bool :=
  c = ' ' ∨ c = '\t' ∨ c = '\n' ∨ c = '\r' ∨
  c = '\x0b' ∨ c = '\x0c' ∨ c = ' ' ∨ c = '﻿'

def trimWs (cs : Chars) : Chars :=
  ((cs.dropWhile isJsWs).reverse.dropWhile isJsWs).reverse

def digitsToNat (ds : Chars) : Nat :=
  ds.foldl (fun a c => 10 * a + (c.toNat - 48)) 0

def isHexDigitJS (c : Char) : Bool :=
  c.isDigit ∨ ('a' ≤ c ∧ c ≤ 'f') ∨ ('A' ≤ c ∧ c ≤ 'F')

def hexDigitVal (c : Char) : Nat :=
  if c.isDigit then c.toNat - 48
  else if 'a' ≤ c ∧ c ≤ 'f' then c.toNat - 87
  else c.toNat - 55

def hexToNat (ds : Chars) : Nat :=
  ds.foldl (fun a c => 16 * a + hexDigitVal c) 0

def binToNat (ds : Chars) : Nat :=
  ds.foldl (fun a c => 2 * a + (c.toNat - 48)) 0

def octToNat (ds : Chars) : Nat :=
  ds.foldl (fun a c => 8 * a + (c.toNat - 48)) 0

/-- The finiteness cutoff of IEEE doubles: a decimal literal whose exact
value reaches 2 ^ 1024 - 2 ^ 970 rounds to Infinity. -/
def jsFinite (q : ℚ) : Bool := |q| < ((2 : ℚ) ^ 1024 - (2 : ℚ) ^ 970)

/-- The exponent suffix of a JS decimal literal: an optional sign and a
nonempty digit string, scaling the mantissa by a power of ten. -/
def expPart (base : ℚ) (r : Chars) : Option ℚ :=
  let sd : Int × Chars :=
    match r with
    | '+' :: d => (1, d)
    | '-' :: d => (-1, d)
    | d => (1, d)
  if sd.2 ≠ [] ∧ sd.2.all Char.isDigit then
    some (base * (10 : ℚ) ^ (sd.1 * (digitsToNat sd.2 : Int)))
  else none

/-- An unsigned JS decimal literal (or the Infinity keyword, which is not
finite and yields none): digits, an optional fraction, an optional
exponent, with at least one digit present. -/
def decLitQ (r : Chars) : Option ℚ :=
  if r = str2c "Infinity" then none
  else
    let ip := r.takeWhile Char.isDigit
    let r1 := r.dropWhile Char.isDigit
    match r1 with
    | [] => if ip = [] then none else some (digitsToNat ip)
    | '.' :: r2 =>
      let fp := r2.takeWhile Char.isDigit
      let r3 := r2.dropWhile Char.isDigit
      if ip = [] ∧ fp = [] then none
      else
        let base : ℚ := (digitsToNat ip : ℚ) + (digitsToNat fp : ℚ) / (10 : ℚ) ^ fp.length
        match r3 with
        | [] => some base
        | 'e' :: r4 => expPart base r4
        | 'E' :: r4 => expPart base r4
        | _ => none
    | 'e' :: r4 => if ip = [] then none else expPart (digitsToNat ip) r4
    | 'E' :: r4 => if ip = [] then none else expPart (digitsToNat ip) r4
    | _ => none

def nonDecimalLit (t : Chars) : Option ℚ :=
  if t.take 2 = str2c "0x" ∨ t.take 2 = str2c "0X" then
    let h := t.drop 2
    if h ≠ [] ∧ h.all isHexDigitJS then some (hexToNat h) else none
  else if t.take 2 = str2c "0o" ∨ t.take 2 = str2c "0O" then
    let h := t.drop 2
    if h ≠ [] ∧ h.all (fun c => '0' ≤ c ∧ c ≤ '7') then some (octToNat h) else none
  else if t.take 2 = str2c "0b" ∨ t.take 2 = str2c "0B" then
    let h := t.drop 2
    if h ≠ [] ∧ h.all (fun c => c = '0' ∨ c = '1') then some (binToNat h) else none
  else decLitQ t

/-- The JS Number conversion of a string, as an exact rational; none
stands for NaN or an infinity, the two cases the handlers treat alike.
The empty (or all-whitespace) string converts to zero; a sign is only
allowed on decimal literals; an overflowing decimal literal rounds to
Infinity and therefore yields none. -/
def jsNumber (v : Chars) : Option ℚ :=
  let t := trimWs v
  if t = [] then some 0
  else
    let raw : Option ℚ :=
      match t with
      | '+' :: r => decLitQ r
      | '-' :: r => (decLitQ r).map (fun q => -q)
      | _ => nonDecimalLit t
    match raw with
    | some q => if jsFinite q then some q else none
    | none => none

/-- JS parseInt with radix 10, as the worker event builder calls it:
leading whitespace and an optional sign, then the maximal leading run of
decimal digits; none stands for NaN. -/
def jsParseIntDec (v : Chars) : Option Int :=
  let t := v.dropWhile isJsWs
  let sd : Int × Chars :=
    match t with
    | '-' :: r => (-1, r)
    | '+' :: r => (1, r)
    | r => (1, r)
  let ds := sd.2.takeWhile Char.isDigit
  if ds = [] then none else some (sd.1 * (digitsToNat ds : Int))

/-- JS parseInt without a radix argument, as the container event builder
calls it: like radix 10 but a 0x or 0X prefix switches to hexadecimal. -/
def jsParseIntAuto (v : Chars) : Option Int :=
  let t := v.dropWhile isJsWs
  let sd : Int × Chars :=
    match t with
    | '-' :: r => (-1, r)
    | '+' :: r => (1, r)
    | r => (1, r)
  if sd.2.take 2 = str2c "0x" ∨ sd.2.take 2 = str2c "0X" then
    let ds := (sd.2.drop 2).takeWhile isHexDigitJS
    if ds = [] then none else some (sd.1 * (hexToNat ds : Int))
  else
    let ds := sd.2.takeWhile Char.isDigit
    if ds = [] then none else some (sd.1 * (digitsToNat ds : Int))

/-- The UTF-8 bytes of one character. -/
def utf8Bytes (c : Char) : List Nat :=
  let n := c.toNat
  if n < 0x80 then [n]
  else if n < 0x800 then [0xC0 + n / 64, 0x80 + n % 64]
  else if n < 0x10000 then [0xE0 + n / 4096, 0x80 + n / 64 % 64, 0x80 + n % 64]
  else [0xF0 + n / 262144, 0x80 + n / 4096 % 64, 0x80 + n / 64 % 64, 0x80 + n % 64]

/-- Percent-decoding to a byte list; none when a percent sign is not
followed by two hex digits, in which case decodeURIComponent throws. -/
def pctDecodeBytes : Chars → Option (List Nat)
  | [] => some []
  | '%' :: a :: b :: rest =>
    if isHexDigitJS a ∧ isHexDigitJS b then
      (pctDecodeBytes rest).map (fun bs => (16 * hexDigitVal a + hexDigitVal b) :: bs)
    else none
  | '%' :: [_] => none
  | '%' :: [] => none
  | c :: rest => (pctDecodeBytes rest).map (fun bs => utf8Bytes c ++ bs)

def isUtf8Cont (b : Nat) : Bool := 0x80 ≤ b ∧ b < 0xC0

/-- Fuelled UTF-8 decoder used to validate the percent-decoded bytes; the
fuel is the byte count, which bounds the number of decoded characters. -/
def utf8DecodeF : Nat → List Nat → Option Chars
  | _, [] => some []
  | 0, _ :: _ => none
  | fuel + 1, b :: rest =>
    if b < 0x80 then
      (utf8DecodeF fuel rest).map (fun cs => Char.ofNat b :: cs)
    else if b < 0xC2 then none
    else if b < 0xE0 then
      match rest with
      | b2 :: r2 =>
        if isUtf8Cont b2 then
          (utf8DecodeF fuel r2).map (fun cs => Char.ofNat ((b - 0xC0) * 64 + (b2 - 0x80)) :: cs)
        else none
      | _ => none
    else if b < 0xF0 then
      match rest with
      | b2 :: b3 :: r2 =>
        let n := (b - 0xE0) * 4096 + (b2 - 0x80) * 64 + (b3 - 0x80)
        if isUtf8Cont b2 ∧ isUtf8Cont b3 ∧ 0x800 ≤ n ∧ ¬(0xD800 ≤ n ∧ n < 0xE000) then
          (utf8DecodeF fuel r2).map (fun cs => Char.ofNat n :: cs)
        else none
      | _ => none
    else if b < 0xF5 then
      match rest with
      | b2 :: b3 :: b4 :: r2 =>
        let n := (b - 0xF0) * 262144 + (b2 - 0x80) * 4096 + (b3 - 0x80) * 64 + (b4 - 0x80)
        if isUtf8Cont b2 ∧ isUtf8Cont b3 ∧ isUtf8Cont b4 ∧ 0x10000 ≤ n ∧ n < 0x110000 then
          (utf8DecodeF fuel r2).map (fun cs => Char.ofNat n :: cs)
        else none
      | _ => none
    else none

/-- JS decodeURIComponent; none when it throws a URIError. -/
def jsDecodeURIComponent (v : Chars) : Option Chars :=
  (pctDecodeBytes v).bind (fun bs => utf8DecodeF bs.length bs)

/-! Event construction of the worker fetch handlers in part_003. The JSON
body (none when absent or unparsable, in which case the handler keeps an
empty event) is extended by the query-string pairs and then the request-id
and income-timestamp keys are set. -/

/-- One iteration of the query loop of the worker fetch handlers: the pair
is split on the equals sign, a missing value stores null, a value whose JS
Number conversion is finite is stored as a number (through parseInt with
radix 10 when that number is integral, which is NaN for the empty string),
and any other value is stored as its decodeURIComponent (the raw value
when decoding throws). -/
def workerQueryVal (v : Chars) : JVal :=
  match jsNumber v with
  | some q =>
    if q.den = 1 then
      match jsParseIntDec v with
      | some n => .num (n : ℚ)
      | none => .nan
    else .num q
  | none =>
    match jsDecodeURIComponent v with
    | some s => .str s
    | none => .str v

def queryStep (ev : JObj) (p : Chars) : JObj :=
  let parts := splitCh '=' p
  let k := parts.headD []
  match parts[1]? with
  | none => setF ev k .null
  | some v => setF ev k (workerQueryVal v)

/-- The event built by the worker fetch handlers: body keys, then query
keys (the query part is the second piece of the url split on question
marks), then request-id and income-timestamp. The plain handler passes
the number zero as request id, the measuring handler the CF-Ray string. -/
def workerEvent (url : Chars) (body : Option JObj) (reqId : JVal) (ts : Int) : JObj :=
  let ev0 := body.getD []
  let ev1 :=
    match (splitCh '?' url)[1]? with
    | none => ev0
    | some q => (splitCh '&' q).foldl queryStep ev0
  setF (setF ev1 (str2c "request-id") reqId) (str2c "income-timestamp") (.num (ts : ℚ))

/-- One iteration of the searchParams loop of the container server in
part_003: a key whose current event value is truthy is skipped; otherwise
parseInt of the value is stored when it is not NaN and the raw string
otherwise. -/
def containerQueryStep (ev : JObj) (kv : Chars × Chars) : JObj :=
  if truthyOpt (getF ev kv.1) then ev
  else
    match jsParseIntAuto kv.2 with
    | some n => setF ev kv.1 (.num (n : ℚ))
    | none => setF ev kv.1 (.str kv.2)

/-- The event built by the container server; the searchParams pairs are
the decoded query pairs produced by the URL parser of the runtime. -/
def containerEvent (body : Option JObj) (sparams : List (Chars × Chars))
    (reqId : Chars) (ts : Int) : JObj :=
  let ev0 := body.getD []
  let ev1 := sparams.foldl containerQueryStep ev0
  setF (setF ev1 (str2c "request-id") (.str reqId)) (str2c "income-timestamp") (.num (ts : ℚ))

/-! Responses of the fetch handlers and the container server. Each
embedding takes the outcome of the single benchmark handler call as an
argument; the handler is applied exactly once, so no retry exists in the
model, matching the source. An html response carries the JS value the
source passes to String, avoiding an unfaithful number printer. -/

inductive RespBody where
  | json (o : JObj)
  | html (v : JVal)

structure WResp where
  status : Nat
  body : RespBody

/-- The output field of log_data: ret.result when ret is truthy and has a
result property, else ret itself. -/
def jsOutput (ret : JVal) : JVal :=
  if truthy ret then (jsGet ret (str2c "result")).getD ret else ret

/-- The measurement property of the handler result, when the result is
truthy and has one. -/
def retMeasurement (ret : JVal) : Option JVal :=
  if truthy ret then jsGet ret (str2c "measurement") else none

/-- The value the html branch stringifies: ret.result when present on a
truthy ret, else the empty string. -/
def htmlValue (ret : JVal) : JVal :=
  if truthy ret then (jsGet ret (str2c "result")).getD (.str []) else .str []

/-- log_data of the plain worker handler: output, then measurement when
the handler result carries one, then time zero when the event has a logs
key. -/
def plainLogData (event : JObj) (ret : JVal) : JObj :=
  let l1 : JObj := [(str2c "output", jsOutput ret)]
  let l2 :=
    match retMeasurement ret with
    | some m => setF l1 (str2c "measurement") m
    | none => l1
  if hasKeyF event (str2c "logs") then setF l2 (str2c "time") (.num 0) else l2

def plainSuccessBody (event : JObj) (ret : JVal) : JObj :=
  [(str2c "begin", .str (str2c "0")),
   (str2c "end", .str (str2c "0")),
   (str2c "results_time", .str (str2c "0")),
   (str2c "result", .obj (plainLogData event ret)),
   (str2c "is_cold", .bool false),
   (str2c "is_cold_worker", .bool false),
   (str2c "container_id", .str (str2c "0")),
   (str2c "environ_container_id", .str (str2c "no_id")),
   (str2c "request_id", .str (str2c "0"))]

def plainErrorBody (msg : Chars) : JObj :=
  [(str2c "begin", .str (str2c "0")),
   (str2c "end", .str (str2c "0")),
   (str2c "results_time", .str (str2c "0")),
   (str2c "result", .obj [(str2c "output", .null)]),
   (str2c "is_cold", .bool false),
   (str2c "is_cold_worker", .bool false),
   (str2c "container_id", .str (str2c "0")),
   (str2c "environ_container_id", .str (str2c "no_id")),
   (str2c "request_id", .str (str2c "0")),
   (str2c "error", .str msg)]

/-- The response of the plain worker fetch handler given the outcome of
the one benchmark handler call: a 500 with the error body on a throw, the
html page when the event has a truthy html value, the JSON success body
otherwise. -/
def plainFetch (event : JObj) (outcome : Except Chars JVal) : WResp :=
  match outcome with
  | .error msg => ⟨500, .json (plainErrorBody msg)⟩
  | .ok ret =>
    if truthyOpt (getF event (str2c "html")) then ⟨200, .html (htmlValue ret)⟩
    else ⟨200, .json (plainSuccessBody event ret)⟩

/-- heapUsed divided twice by 1024, the memory_used_mb of the measuring
handlers. -/
def memoryUsedMb (heapUsed : Nat) : ℚ := (heapUsed : ℚ) / 1024 / 1024

/-- log_data of the measuring worker handler: output, then a measurement
object that is always present (the one of the handler result, or empty)
and receives the memory_used_mb field when it is an object, then time
zero when the event has a logs key. -/
def measLogData (event : JObj) (ret : JVal) (heapUsed : Nat) : JObj :=
  let l1 : JObj := [(str2c "output", jsOutput ret)]
  let meas : JVal := (retMeasurement ret).getD (.obj [])
  let meas2 : JVal :=
    match meas with
    | .obj fs => .obj (setF fs (str2c "memory_used_mb") (.num (memoryUsedMb heapUsed)))
    | other => other
  let l2 := setF l1 (str2c "measurement") meas2
  if hasKeyF event (str2c "logs") then setF l2 (str2c "time") (.num 0) else l2

def measSuccessBody (event : JObj) (ret : JVal) (tb te micro : ℚ)
    (heapUsed : Nat) (reqId : Chars) : JObj :=
  [(str2c "begin", .num tb),
   (str2c "end", .num te),
   (str2c "compute_time", .num micro),
   (str2c "results_time", .num 0),
   (str2c "result", .obj (measLogData event ret heapUsed)),
   (str2c "is_cold", .bool false),
   (str2c "is_cold_worker", .bool false),
   (str2c "container_id", .str (str2c "0")),
   (str2c "environ_container_id", .str (str2c "no_id")),
   (str2c "request_id", .str reqId)]

/-- The error body of the measuring worker handler; the stack key is
dropped by JSON.stringify when the error has no stack. -/
def measErrorBody (msg : Chars) (stack : Option Chars) (event : JObj)
    (envV : JVal) (tb te micro : ℚ) : JObj :=
  [(str2c "begin", .num tb),
   (str2c "end", .num te),
   (str2c "compute_time", .num micro),
   (str2c "results_time", .num 0),
   (str2c "result", .obj [(str2c "output", .null)]),
   (str2c "is_cold", .bool false),
   (str2c "is_cold_worker", .bool false),
   (str2c "container_id", .str (str2c "0")),
   (str2c "environ_container_id", .str (str2c "no_id")),
   (str2c "request_id", .str (str2c "0")),
   (str2c "error", .str msg)] ++
  (match stack with
   | some s => [(str2c "stack", .str s)]
   | none => []) ++
  [(str2c "event", .obj event),
   (str2c "env", envV)]

/-- The response of the measuring worker fetch handler given the outcome
of the one benchmark handler call. -/
def measFetch (event : JObj) (outcome : Except (Chars × Option Chars) JVal)
    (tb te micro : ℚ) (heapUsed : Nat) (reqId : Chars) (envV : JVal) : WResp :=
  match outcome with
  | .error (msg, stack) => ⟨500, .json (measErrorBody msg stack event envV tb te micro)⟩
  | .ok ret =>
    if truthyOpt (getF event (str2c "html")) then ⟨200, .html (htmlValue ret)⟩
    else ⟨200, .json (measSuccessBody event ret tb te micro heapUsed reqId)⟩

/-- log_data of the container server: output and a measurement object that
is always present and receives the memory_used_mb field when it is an
object. -/
def containerLogData (ret : JVal) (heapUsed : Nat) : JObj :=
  let l1 : JObj := [(str2c "output", jsOutput ret)]
  let meas : JVal := (retMeasurement ret).getD (.obj [])
  let meas2 : JVal :=
    match meas with
    | .obj fs => .obj (setF fs (str2c "memory_used_mb") (.num (memoryUsedMb heapUsed)))
    | other => other
  setF l1 (str2c "measurement") meas2

def containerSuccessBody (ret : JVal) (tb te : ℚ) (heapUsed : Nat)
    (reqId : Chars) : JObj :=
  [(str2c "begin", .num tb),
   (str2c "end", .num te),
   (str2c "results_time", .num 0),
   (str2c "result", .obj (containerLogData ret heapUsed)),
   (str2c "is_cold", .bool false),
   (str2c "is_cold_worker", .bool false),
   (str2c "container_id", .str (str2c "0")),
   (str2c "environ_container_id", .str (str2c "no_id")),
   (str2c "request_id", .str reqId)]

/-- The error body of the catch of the container server request callback
in part_003: only the error message and the stack; the stack key is
dropped by JSON.stringify when the error has no stack. -/
def containerErrorBody (msg : Chars) (stack : Option Chars) : JObj :=
  (str2c "error", .str msg) ::
  (match stack with
   | some s => [(str2c "stack", .str s)]
   | none => [])

/-- The response of the container server request callback given the
outcome of the one benchmark handler call. -/
def containerRespond (event : JObj) (outcome : Except (Chars × Option Chars) JVal)
    (tb te : ℚ) (heapUsed : Nat) (reqId : Chars) : WResp :=
  match outcome with
  | .error (msg, stack) => ⟨500, .json (containerErrorBody msg stack)⟩
  | .ok ret =>
    if truthyOpt (getF event (str2c "html")) then ⟨200, .html (htmlValue ret)⟩
    else ⟨200, .json (containerSuccessBody ret tb te heapUsed reqId)⟩

/-! The storage wrapper of storage.js. The world holds the local
filesystem and the R2 store as key-value maps; an instance carries an
allocation identity (for the singleton claim), whether the R2 binding is
present, and the written_files set as a list. The uuid produced by
uuid.v4 enters as an explicit argument. -/

structure storageInst where
  id : Nat
  hasHandle : Bool
  written_files : List Chars
deriving Repr, DecidableEq

structure StoreWorld where
  fs : List (Chars × Bytes)
  r2 : List (Chars × Bytes)
deriving Repr, DecidableEq

def isHexLower (c : Char) : Bool := c.isDigit ∨ ('a' ≤ c ∧ c ≤ 'f')

/-- The first dash-separated group of a uuid string. -/
def uuidFirstSeg (u : Chars) : Chars := (splitCh '-' u).headD []

/-- Bytes of the JS string conversion of a value written through
Buffer.from(String(data)); only used when the downloaded object is a
string or null. -/
def strBytes (cs : Chars) : Bytes := cs.map Char.toNat

namespace storage

/-- unique_name of storage.js: the first uuid group is put between the
parsed name and extension and the result joined back onto the parsed
directory with node path.join. -/
def unique_name (nameArg : Chars) (uuidStr : Chars) : Chars :=
  let parsed := nodeParse nameArg
  nodeJoin2 parsed.dir (parsed.name ++ '.' :: uuidFirstSeg uuidStr ++ parsed.ext)

/-- upload_stream of storage.js: the data is stored under the unique key
in R2 when the binding is present, otherwise under /tmp on the local
filesystem. -/
def upload_stream (st : storageInst) (w : StoreWorld) (key : Chars)
    (data : Bytes) (uuidStr : Chars) : Except Chars (Chars × StoreWorld) :=
  let uk := unique_name key uuidStr
  if st.hasHandle then .ok (uk, { w with r2 := setKV w.r2 uk data })
  else .ok (uk, { w with fs := setKV w.fs (nodeJoin2 (str2c "/tmp") uk) data })

/-- upload of storage.js: a path previously recorded in written_files is
re-rooted under /tmp through path.resolve, the file is read from the
local filesystem and handed to upload_stream; a missing file throws. -/
def upload (st : storageInst) (w : StoreWorld) (_bucket key filepath uuidStr : Chars) :
    Except Chars (Chars × StoreWorld) :=
  let realPath :=
    if filepath ∈ st.written_files then nodeJoin2 (str2c "/tmp") (nodeResolve1 filepath)
    else filepath
  match getKV w.fs realPath with
  | some data => upload_stream st w key data uuidStr
  | none => .error (str2c "upload: file not found on disk and no R2 handle provided")

/-- download_stream of storage.js: an R2 read that yields the object bytes
or null when absent; without the binding a read of /tmp/key from the
local filesystem that throws when absent. -/
def download_stream (st : storageInst) (w : StoreWorld) (key : Chars) :
    Except Chars (Option Bytes) :=
  if st.hasHandle then .ok (getKV w.r2 key)
  else
    match getKV w.fs (nodeJoin2 (str2c "/tmp") key) with
    | some d => .ok (some d)
    | none => .error (str2c "download_stream: object not found")

/-- download of storage.js: the object is fetched through download_stream,
the target path is re-rooted under /tmp when it does not already start
with /tmp, the original path is added to written_files, and the bytes are
written (a null object writes the bytes of the string null). -/
def download (st : storageInst) (w : StoreWorld) (_bucket key filepath : Chars) :
    Except Chars (storageInst × StoreWorld) :=
  match download_stream st w key with
  | .error e => .error e
  | .ok data =>
    let real_fp :=
      if filepath.take 4 = str2c "/tmp" then filepath
      else nodeJoin2 (str2c "/tmp") (nodeResolve1 filepath)
    let st2 : storageInst :=
      { st with written_files :=
          if filepath ∈ st.written_files then st.written_files
          else st.written_files ++ [filepath] }
    let bytes :=
      match data with
      | some b => b
      | none => strBytes (str2c "null")
    .ok (st2, { w with fs := setKV w.fs real_fp bytes })

end storage

/-! The module-level singleton of storage.js for the singleton claim. The
machine allocates a fresh identity on each init_instance; the benchmark
operations run against the current instance and never replace it. -/

structure Machine where
  nextId : Nat
  inst : Option storageInst
  world : StoreWorld

def initialMachine (w : StoreWorld) : Machine := ⟨0, none, w⟩

/-- init_instance of storage.js: a fresh instance replaces the module
field, with the R2 handle when the entry environment has one and an empty
written_files set. -/
def init_instance (m : Machine) (hasR2 : Bool) : Machine :=
  { m with nextId := m.nextId + 1, inst := some ⟨m.nextId, hasR2, []⟩ }

/-- get_instance of storage.js: a throw before any init_instance, the
stored instance afterwards. -/
def get_instance (m : Machine) : Except Chars storageInst :=
  match m.inst with
  | none => .error (str2c "must init storage singleton first")
  | some s => .ok s

/-- The benchmark operations that run between get_instance calls. -/
inductive SOp where
  | download (key fp : Chars)
  | upload (key fp u : Chars)
  | getInst

def stepOp (m : Machine) (op : SOp) : Machine :=
  match m.inst with
  | none => m
  | some st =>
    match op with
    | .getInst => m
    | .download k fp =>
      match storage.download st m.world [] k fp with
      | .ok (st2, w2) => { m with inst := some st2, world := w2 }
      | .error _ => m
    | .upload k fp u =>
      match storage.upload st m.world [] k fp u with
      | .ok (_, w2) => { m with world := w2 }
      | .error _ => m

def runOps (m : Machine) (ops : List SOp) : Machine := ops.foldl stepOp m

/-- The identity of the current singleton instance, when one exists. -/
def instId (m : Machine) : Option Nat := m.inst.map (fun s => s.id)

/-- A plain path segment: nonempty, without slashes, and neither the dot
nor the double-dot segment. -/
def plainSeg (s : Chars) : Prop :=
  s ≠ [] ∧ '/' ∉ s ∧ s ≠ ['.'] ∧ s ≠ ['.', '.']

instance (s : Chars) : Decidable (plainSeg s) := by
  unfold plainSeg; infer_instance

/-! The nosql wrapper over a KV binding (storage.js second part): insert
stringifies the data extended with both key fields and stores it under
the composite key, get parses the stored string. The JSON serializer of
the runtime enters as an explicit function pair. -/

namespace nosql

def insert (kv : List (Chars × Chars)) (pri sec : Chars × Chars) (d : JObj)
    (stringify : JObj → Chars) : List (Chars × Chars) :=
  let keyData := setF (setF d pri.1 (.str pri.2)) sec.1 (.str sec.2)
  setKV kv (pri.2 ++ '#' :: sec.2) (stringify keyData)

def get (kv : List (Chars × Chars)) (pri sec : Chars × Chars)
    (parse : Chars → Option JObj) : Option JObj :=
  match getKV kv (pri.2 ++ '#' :: sec.2) with
  | some s => parse s
  | none => none

end nosql

/-! The fs polyfill of fs-polyfill.js for the readFileSync claim. -/

inductive PromiseOr (α : Type) where
  | promise (outcome : α)
  | direct (v : α)
deriving Repr, DecidableEq

structure FsWorld where
  r2 : Option (List (Chars × Bytes))
  benchName : Option Chars

inductive FileContent where
  | text (b : Bytes)
  | buffer (b : Bytes)
deriving Repr, DecidableEq

/-- The leading dot-slash or slash stripped by the path normalization of
the fs polyfill. -/
def stripDotSlash : Chars → Chars
  | '.' :: '/' :: r => r
  | '/' :: r => r
  | p => p

/-- The benchmark-name prefix added by the fs polyfill when configured and
not already present. -/
def addBench (bn : Option Chars) (p : Chars) : Chars :=
  match bn with
  | none => p
  | some b => if p.take (b.length + 1) = b ++ ['/'] then p else b ++ '/' :: p

/-- readFile of fs-polyfill.js: a throw without the R2 binding, a throw
when the normalized key is absent, otherwise the content (text for utf8
and unknown encodings, a buffer for the buffer encoding). -/
def fsp_readFile (fw : FsWorld) (p : Chars) (enc : Chars) :
    Except Chars FileContent :=
  match fw.r2 with
  | none => .error (str2c "R2 bucket not available")
  | some store =>
    let np := addBench fw.benchName (stripDotSlash p)
    match getKV store np with
    | none => .error (str2c "ENOENT: no such file or directory")
    | some bytes =>
      if enc = str2c "utf8" ∨ enc = str2c "utf-8" then .ok (.text bytes)
      else if enc = str2c "buffer" then .ok (.buffer bytes)
      else .ok (.text bytes)

/-- readFileSync of fs-polyfill.js: a new Promise whose outcome is the
readFile result through the callback, with the utf8 default for a missing
or empty encoding argument. -/
def fsp_readFileSync (fw : FsWorld) (p : Chars) (enc : Option Chars) :
    PromiseOr (Except Chars FileContent) :=
  .promise (fsp_readFile fw p
    (match enc with
     | some s => if s = [] then str2c "utf8" else s
     | none => str2c "utf8"))

/-! The measurement of the compression benchmark handler (part_005) and
the memory field the measuring worker adds. The clock argument gives the
successive Date.now readings in source order: download begin and stop,
compress begin and end, upload begin and stop. -/

/-- parseDirectory of the compression benchmark: the sum of the stat
sizes of the files under the directory. -/
def parseDirectory (sizes : List Nat) : Nat := sizes.foldl (fun a s => a + s) 0

structure CompMeasurement where
  download_time : Int
  download_size : Int
  upload_time : Int
  upload_size : Int
  compute_time : Int
deriving Repr, DecidableEq

/-- The measurement mapping returned by the compression benchmark handler:
phase times are differences of consecutive clock readings scaled to
microseconds, sizes come from the filesystem. -/
def compressionMeasurement (clock : Nat → Int) (fileSizes : List Nat)
    (archiveSize : Nat) : CompMeasurement :=
  { download_time := (clock 1 - clock 0) * 1000
    download_size := (parseDirectory fileSizes : Int)
    upload_time := (clock 5 - clock 4) * 1000
    upload_size := (archiveSize : Int)
    compute_time := (clock 3 - clock 2) * 1000 }

end SBS

namespace SBS

/-! Theorems about the path polyfill. -/

theorem splitCh_ne_nil (sep : Char) (cs : Chars) : splitCh sep cs ≠ [] := by
  cases cs with
  | nil => simp [splitCh]
  | cons c rest =>
    simp only [splitCh]
    split
    · simp
    · split <;> simp

theorem mem_dropLast_sub {α : Type} {l : List α} {a : α}
    (h : a ∈ l.dropLast) : a ∈ l := by
  have := List.dropLast_sublist (l := l)
  exact this.subset h

theorem foldl_normStep_false_sane (segs : List Chars) (acc : List Chars)
    (hacc : ∀ s ∈ acc, s ≠ [] ∧ s ≠ ['.'] ∧ s ≠ ['.', '.']) :
    ∀ s ∈ segs.foldl (normStep false) acc,
      s ≠ [] ∧ s ≠ ['.'] ∧ s ≠ ['.', '.'] := by
  induction segs generalizing acc with
  | nil => exact hacc
  | cons seg rest ih =>
    intro s hs
    refine ih (normStep false acc seg) ?_ s hs
    intro t ht
    unfold normStep at ht
    by_cases h1 : seg = [] ∨ seg = ['.']
    · rw [if_pos h1] at ht; exact hacc t ht
    · rw [if_neg h1] at ht
      by_cases h2 : seg = ['.', '.']
      · rw [if_pos h2] at ht
        by_cases h3 : acc ≠ [] ∧ acc.getLast? ≠ some ['.', '.']
        · rw [if_pos h3] at ht
          exact hacc t (mem_dropLast_sub ht)
        · rw [if_neg h3] at ht
          simp only [Bool.false_eq_true, if_false] at ht
          exact hacc t ht
      · rw [if_neg h2] at ht
        rcases List.mem_append.mp ht with h | h
        · exact hacc t h
        · have : t = seg := by simpa using h
          subst this
          push_neg at h1
          exact ⟨h1.1, h1.2, h2⟩

theorem normalizeSegments_sane (segs : List Chars) :
    ∀ s ∈ normalizeSegments segs, s ≠ [] ∧ s ≠ ['.'] ∧ s ≠ ['.', '.'] :=
  foldl_normStep_false_sane segs [] (by intro s hs; simp at hs)

theorem mem_splitCh_no_sep (sep : Char) :
    ∀ (cs : Chars) (g : Chars), g ∈ splitCh sep cs → sep ∉ g
  | [], g, hg => by
    simp only [splitCh, List.mem_singleton] at hg
    subst hg
    exact List.not_mem_nil sep
  | c :: rest, g, hg => by
    rcases h : splitCh sep rest with _ | ⟨g0, gs⟩
    · exact absurd h (splitCh_ne_nil sep rest)
    · simp only [splitCh, h] at hg
      by_cases hc : c = sep
      · rw [if_pos hc] at hg
        rcases List.mem_cons.mp hg with h2 | h2
        · subst h2; exact List.not_mem_nil sep
        · exact mem_splitCh_no_sep sep rest g (h ▸ h2)
      · rw [if_neg hc] at hg
        rcases List.mem_cons.mp hg with h2 | h2
        · subst h2
          intro hm
          rcases List.mem_cons.mp hm with h3 | h3
          · exact hc h3.symm
          · exact mem_splitCh_no_sep sep rest g0
              (h ▸ List.mem_cons_self g0 gs) h3
        · exact mem_splitCh_no_sep sep rest g (h ▸ List.mem_cons_of_mem g0 h2)

theorem mem_foldl_normStep (u : Bool) :
    ∀ (segs acc : List Chars) (s : Chars),
      s ∈ segs.foldl (normStep u) acc → s ∈ acc ∨ s ∈ segs
  | [], _, _, h => Or.inl h
  | seg :: rest, acc, s, h => by
    rcases mem_foldl_normStep u rest (normStep u acc seg) s h with h2 | h2
    · unfold normStep at h2
      by_cases c1 : seg = [] ∨ seg = ['.']
      · rw [if_pos c1] at h2; exact Or.inl h2
      · rw [if_neg c1] at h2
        by_cases c2 : seg = ['.', '.']
        · rw [if_pos c2] at h2
          by_cases c3 : acc ≠ [] ∧ acc.getLast? ≠ some ['.', '.']
          · rw [if_pos c3] at h2
            exact Or.inl (mem_dropLast_sub h2)
          · rw [if_neg c3] at h2
            cases u with
            | false =>
              simp only [Bool.false_eq_true, if_false] at h2
              exact Or.inl h2
            | true =>
              simp only [if_true] at h2
              rcases List.mem_append.mp h2 with h3 | h3
              · exact Or.inl h3
              · exact Or.inr (by
                  rw [List.mem_singleton.mp h3]
                  exact List.mem_cons_self seg rest)
        · rw [if_neg c2] at h2
          rcases List.mem_append.mp h2 with h3 | h3
          · exact Or.inl h3
          · exact Or.inr (by
              rw [List.mem_singleton.mp h3]
              exact List.mem_cons_self seg rest)
    · exact Or.inr (List.mem_cons_of_mem seg h2)

theorem normalizeSegments_mem (segs : List Chars) (s : Chars)
    (h : s ∈ normalizeSegments segs) : s ∈ segs := by
  rcases mem_foldl_normStep false segs [] s h with h2 | h2
  · exact absurd h2 (List.not_mem_nil s)
  · exact h2

theorem polyCollect_no_slash :
    ∀ (parts : List Chars) (s : Chars), s ∈ polyCollect parts → '/' ∉ s
  | [], s, h => absurd h (List.not_mem_nil s)
  | p :: rest, s, h => by
    unfold polyCollect at h
    by_cases hp : p = []
    · rw [if_pos hp] at h
      exact polyCollect_no_slash rest s h
    · rw [if_neg hp] at h
      by_cases habs : (jsReplaceBackslash p).head? = some '/'
      · rw [if_pos habs] at h
        exact mem_splitCh_no_sep '/' _ s (List.mem_filter.mp h).1
      · rw [if_neg habs] at h
        rcases List.mem_append.mp h with h2 | h2
        · exact polyCollect_no_slash rest s h2
        · exact mem_splitCh_no_sep '/' _ s (List.mem_filter.mp h2).1

/-- C10: resolve of the path polyfill always returns a string that begins
with a slash whose slash-separated segments are all nonempty, free of
slashes, and none of them is the dot or the double-dot segment (so the
listed segments are exactly the slash-separated segments of the output),
and resolve of the empty argument list returns the root. -/
theorem claim_C10 :
    resolve [] = "/" ∧
    ∀ input : List String, ∃ segs : List Chars,
      resolve input = ⟨'/' :: interc '/' segs⟩ ∧
      ∀ s ∈ segs, s ≠ [] ∧ s ≠ ['.'] ∧ s ≠ ['.', '.'] ∧ '/' ∉ s := by
  constructor
  · rfl
  · intro input
    by_cases h : input = []
    · refine ⟨[], ?_, ?_⟩
      · subst h; rfl
      · intro s hs; simp at hs
    · refine ⟨normalizeSegments (polyCollect (input.map String.data).reverse), ?_, ?_⟩
      · have hmap : input.map String.data ≠ [] := by
          intro hc; exact h (List.map_eq_nil_iff.mp hc)
        simp only [resolve, pathResolveL, if_neg hmap]
      · intro s hs
        refine ⟨(normalizeSegments_sane _ s hs).1,
            (normalizeSegments_sane _ s hs).2.1,
            (normalizeSegments_sane _ s hs).2.2, ?_⟩
        exact polyCollect_no_slash _ s (normalizeSegments_mem _ s hs)

/-! Association-list lemmas. -/

theorem find?_map_setKey {β : Type} (rest : List (Chars × β)) (k : Chars) (v : β) :
    (rest.map (fun p => if p.1 = k then (k, v) else p)).find? (fun p => p.1 = k) =
      if rest.any (fun p => p.1 = k) then some (k, v) else none := by
  induction rest with
  | nil => simp
  | cons p l ih =>
    by_cases hp : p.1 = k
    · simp [hp]
    · have h1 : (if p.1 = k then (k, v) else p) = p := if_neg hp
      rw [List.map_cons, h1, List.find?_cons_of_neg _ (by simpa using hp), ih,
        List.any_cons]
      have h2 : (decide (p.1 = k) || l.any fun q => decide (q.1 = k))
          = l.any fun q => decide (q.1 = k) := by simp [hp]
      rw [h2]

theorem find?_map_setKey_ne {β : Type} (m : List (Chars × β)) (k k2 : Chars) (v : β)
    (h : k2 ≠ k) :
    (m.map (fun p => if p.1 = k then (k, v) else p)).find? (fun p => p.1 = k2)
      = m.find? (fun p => p.1 = k2) := by
  induction m with
  | nil => rfl
  | cons p l ih =>
    by_cases hp : p.1 = k
    · have h1 : (if p.1 = k then (k, v) else p) = (k, v) := if_pos hp
      have hpk : ¬ (p.1 = k2) := by rw [hp]; exact fun hc => h hc.symm
      have hkk2 : ¬ ((k, v).1 = k2) := fun hc => h hc.symm
      rw [List.map_cons, h1, List.find?_cons_of_neg _ (by simpa using hkk2),
        List.find?_cons_of_neg _ (by simpa using hpk), ih]
    · have h1 : (if p.1 = k then (k, v) else p) = p := if_neg hp
      by_cases hp2 : p.1 = k2
      · rw [List.map_cons, h1, List.find?_cons_of_pos _ (by simpa using hp2),
          List.find?_cons_of_pos _ (by simpa using hp2)]
      · rw [List.map_cons, h1, List.find?_cons_of_neg _ (by simpa using hp2),
          List.find?_cons_of_neg _ (by simpa using hp2), ih]

theorem getKV_setKV_self {β : Type} (m : List (Chars × β)) (k : Chars) (v : β) :
    getKV (setKV m k v) k = some v := by
  unfold getKV setKV
  by_cases h : m.any (fun p => p.1 = k)
  · rw [if_pos h, find?_map_setKey, if_pos h]
    rfl
  · rw [if_neg h]
    have hnone : m.find? (fun p => decide (p.1 = k)) = none := by
      rw [List.find?_eq_none]
      intro x hx hk
      exact h (List.any_eq_true.mpr ⟨x, hx, hk⟩)
    rw [List.find?_append, hnone]
    simp

theorem getKV_setKV_ne {β : Type} (m : List (Chars × β)) (k k2 : Chars) (v : β)
    (h : k2 ≠ k) : getKV (setKV m k v) k2 = getKV m k2 := by
  unfold getKV setKV
  by_cases hm : m.any (fun p => p.1 = k)
  · rw [if_pos hm, find?_map_setKey_ne m k k2 v h]
  · rw [if_neg hm, List.find?_append]
    have h2 : ([(k, v)].find? (fun p => decide (p.1 = k2))) = none := by
      rw [List.find?_eq_none]
      intro x hx
      have hxe : x = (k, v) := by simpa using hx
      subst hxe
      simp
      exact fun hc => h hc.symm
    rw [h2, Option.or_none]

theorem getF_setF_self (o : JObj) (k : Chars) (v : JVal) :
    getF (setF o k v) k = some v := getKV_setKV_self o k v

theorem getF_setF_ne (o : JObj) (k k2 : Chars) (v : JVal) (h : k2 ≠ k) :
    getF (setF o k v) k2 = getF o k2 := getKV_setKV_ne o k k2 v h

theorem keysOf_setF (o : JObj) (k : Chars) (v : JVal) :
    keysOf (setF o k v) = if hasKeyF o k then keysOf o else keysOf o ++ [k] := by
  unfold keysOf setF setKV hasKeyF
  by_cases h : o.any (fun p => p.1 = k)
  · rw [if_pos h, if_pos h, List.map_map]
    apply List.map_congr_left
    intro p _
    by_cases hpk : p.1 = k
    · simp [hpk]
    · simp [hpk]
  · rw [if_neg h, if_neg h]
    simp

theorem mem_keysOf_setF (o : JObj) (k : Chars) (v : JVal) :
    k ∈ keysOf (setF o k v) := by
  rw [keysOf_setF]
  by_cases h : hasKeyF o k
  · rw [if_pos h]
    unfold hasKeyF at h
    rcases List.any_eq_true.mp h with ⟨p, hp, hpk⟩
    have : p.1 = k := of_decide_eq_true hpk
    exact this ▸ List.mem_map.mpr ⟨p, hp, rfl⟩
  · rw [if_neg h]
    simp

theorem mem_keysOf_setF_mono (o : JObj) (k j : Chars) (v : JVal)
    (h : j ∈ keysOf o) : j ∈ keysOf (setF o k v) := by
  rw [keysOf_setF]
  by_cases hb : hasKeyF o k
  · rw [if_pos hb]; exact h
  · rw [if_neg hb]; exact List.mem_append.mpr (Or.inl h)

theorem getF_eq_none_of_not_hasKey (o : JObj) (k : Chars)
    (h : hasKeyF o k = false) : getF o k = none := by
  unfold getF getKV
  have hnone : o.find? (fun p => decide (p.1 = k)) = none := by
    rw [List.find?_eq_none]
    intro x hx hk
    have htrue : o.any (fun p => decide (p.1 = k)) = true :=
      List.any_eq_true.mpr ⟨x, hx, hk⟩
    unfold hasKeyF at h
    rw [h] at htrue
    cases htrue
  rw [hnone]; rfl

theorem hasKeyF_setF_self (o : JObj) (k : Chars) (v : JVal) :
    hasKeyF (setF o k v) k = true := by
  have := mem_keysOf_setF o k v
  unfold keysOf at this
  rcases List.mem_map.mp this with ⟨p, hp, hpk⟩
  unfold hasKeyF
  exact List.any_eq_true.mpr ⟨p, hp, by simp [hpk]⟩

theorem hasKeyF_setF_mono (o : JObj) (k j : Chars) (v : JVal)
    (h : hasKeyF o j = true) : hasKeyF (setF o k v) j = true := by
  unfold hasKeyF at h
  rcases List.any_eq_true.mp h with ⟨p, hp, hpj⟩
  have hj : p.1 = j := of_decide_eq_true hpj
  have : j ∈ keysOf o := hj ▸ List.mem_map.mpr ⟨p, hp, rfl⟩
  have h2 := mem_keysOf_setF_mono o k j v this
  unfold keysOf at h2
  rcases List.mem_map.mp h2 with ⟨q, hq, hqj⟩
  unfold hasKeyF
  exact List.any_eq_true.mpr ⟨q, hq, by simp [hqj]⟩

/-! The singleton machine. -/

theorem download_preserves_id (st : storageInst) (w : StoreWorld)
    (b k fp : Chars) (st2 : storageInst) (w2 : StoreWorld)
    (h : storage.download st w b k fp = .ok (st2, w2)) : st2.id = st.id := by
  unfold storage.download at h
  rcases hds : storage.download_stream st w k with e | data
  · rw [hds] at h; cases h
  · rw [hds] at h
    simp only [Except.ok.injEq, Prod.mk.injEq] at h
    rw [← h.1]

theorem stepOp_instId (m : Machine) (op : SOp) : instId (stepOp m op) = instId m := by
  unfold stepOp
  rcases hm : m.inst with _ | st
  · rfl
  · rcases op with ⟨k, fp⟩ | ⟨k, fp, u⟩ | _
    · rcases hd : storage.download st m.world [] k fp with e | ⟨st2, w2⟩
      · simp [instId, hd]
      · have hid : st2.id = st.id := download_preserves_id st m.world [] k fp st2 w2 hd
        simp [instId, hd, hm, hid]
    · rcases hu : storage.upload st m.world [] k fp u with e | ⟨uk, w2⟩
      · simp [instId, hu]
      · simp [instId, hu, hm]
    · rfl

theorem runOps_instId (m : Machine) (ops : List SOp) :
    instId (runOps m ops) = instId m := by
  induction ops generalizing m with
  | nil => rfl
  | cons op rest ih =>
    show instId (runOps (stepOp m op) rest) = instId m
    rw [ih (stepOp m op), stepOp_instId]

/-- C5: get_instance throws before any init_instance, and after an
init_instance any two get_instance calls, with arbitrary storage
operations in between, return the same instance (same allocation
identity), namely the one created by that init_instance. -/
theorem claim_C5 :
    (∀ w ops, ∃ e, get_instance (runOps (initialMachine w) ops) = .error e) ∧
    (∀ m b ops1 ops2, ∃ s1 s2,
      get_instance (runOps (init_instance m b) ops1) = .ok s1 ∧
      get_instance (runOps (runOps (init_instance m b) ops1) ops2) = .ok s2 ∧
      s1.id = s2.id ∧ s1.id = m.nextId) := by
  constructor
  · intro w ops
    have h := runOps_instId (initialMachine w) ops
    have hnone : (runOps (initialMachine w) ops).inst = none := by
      have : instId (initialMachine w) = none := rfl
      rw [this] at h
      unfold instId at h
      exact Option.map_eq_none.mp h
    exact ⟨_, by unfold get_instance; rw [hnone]⟩
  · intro m b ops1 ops2
    have h1 := runOps_instId (init_instance m b) ops1
    have h2 := runOps_instId (runOps (init_instance m b) ops1) ops2
    have hinit : instId (init_instance m b) = some m.nextId := rfl
    rw [hinit] at h1
    rw [h1] at h2
    unfold instId at h1 h2
    rcases Option.map_eq_some.mp h1 with ⟨s1, hs1, hid1⟩
    rcases Option.map_eq_some.mp h2 with ⟨s2, hs2, hid2⟩
    refine ⟨s1, s2, ?_, ?_, ?_, hid1⟩
    · unfold get_instance; rw [hs1]
    · unfold get_instance; rw [hs2]
    · rw [hid1, hid2]

/-- C7: under a monotone clock, every numeric field of the measurement of
the compression benchmark handler is non-negative, as is the
memory_used_mb the measuring worker adds. -/
theorem claim_C7 (clock : Nat → Int) (fileSizes : List Nat)
    (archiveSize heapUsed : Nat)
    (hmono : ∀ i j : Nat, i ≤ j → clock i ≤ clock j) :
    0 ≤ (compressionMeasurement clock fileSizes archiveSize).download_time ∧
    0 ≤ (compressionMeasurement clock fileSizes archiveSize).download_size ∧
    0 ≤ (compressionMeasurement clock fileSizes archiveSize).upload_time ∧
    0 ≤ (compressionMeasurement clock fileSizes archiveSize).upload_size ∧
    0 ≤ (compressionMeasurement clock fileSizes archiveSize).compute_time ∧
    0 ≤ memoryUsedMb heapUsed := by
  refine ⟨?_, ?_, ?_, ?_, ?_, ?_⟩
  · exact mul_nonneg (sub_nonneg.mpr (hmono 0 1 (by norm_num))) (by norm_num)
  · exact Int.natCast_nonneg _
  · exact mul_nonneg (sub_nonneg.mpr (hmono 4 5 (by norm_num))) (by norm_num)
  · exact Int.natCast_nonneg _
  · exact mul_nonneg (sub_nonneg.mpr (hmono 2 3 (by norm_num))) (by norm_num)
  · unfold memoryUsedMb
    positivity

theorem claim_C7_witness :
    0 ≤ (compressionMeasurement (fun _ => 0) [5, 7] 3).download_time ∧
    0 ≤ (compressionMeasurement (fun _ => 0) [5, 7] 3).download_size ∧
    0 ≤ (compressionMeasurement (fun _ => 0) [5, 7] 3).upload_time ∧
    0 ≤ (compressionMeasurement (fun _ => 0) [5, 7] 3).upload_size ∧
    0 ≤ (compressionMeasurement (fun _ => 0) [5, 7] 3).compute_time ∧
    0 ≤ memoryUsedMb 4096 :=
  claim_C7 (fun _ => 0) [5, 7] 3 4096 (fun _ _ _ => le_refl 0)

/-- C8: inserting under a primary and a secondary key pair and reading the
same pair back through the KV nosql wrapper returns the data object
extended with both key fields (the key fields overriding equally named
fields), the record being stored under the composite key made of the two
key values joined by a hash sign. The JSON serializer of the runtime
enters as a function pair assumed to round-trip on the stored object. -/
theorem claim_C8 (kv : List (Chars × Chars)) (pri sec : Chars × Chars) (d : JObj)
    (stringify : JObj → Chars) (parse : Chars → Option JObj)
    (hrt : parse (stringify (setF (setF d pri.1 (.str pri.2)) sec.1 (.str sec.2)))
      = some (setF (setF d pri.1 (.str pri.2)) sec.1 (.str sec.2))) :
    nosql.get (nosql.insert kv pri sec d stringify) pri sec parse
      = some (setF (setF d pri.1 (.str pri.2)) sec.1 (.str sec.2)) ∧
    getKV (nosql.insert kv pri sec d stringify) (pri.2 ++ '#' :: sec.2)
      = some (stringify (setF (setF d pri.1 (.str pri.2)) sec.1 (.str sec.2))) := by
  have hstore := getKV_setKV_self kv (pri.2 ++ '#' :: sec.2)
    (stringify (setF (setF d pri.1 (.str pri.2)) sec.1 (.str sec.2)))
  constructor
  · unfold nosql.get nosql.insert
    rw [hstore]
    exact hrt
  · exact hstore

theorem claim_C8_witness :
    nosql.get
      (nosql.insert [] (str2c "k", str2c "p1") (str2c "s", str2c "s1")
        [(str2c "d", .num 3)] (fun _ => str2c "blob"))
      (str2c "k", str2c "p1") (str2c "s", str2c "s1")
      (fun _ => some [(str2c "d", .num 3), (str2c "k", .str (str2c "p1")),
        (str2c "s", .str (str2c "s1"))])
      = some (setF (setF [(str2c "d", .num 3)] (str2c "k") (.str (str2c "p1")))
          (str2c "s") (.str (str2c "s1"))) ∧
    getKV
      (nosql.insert [] (str2c "k", str2c "p1") (str2c "s", str2c "s1")
        [(str2c "d", .num 3)] (fun _ => str2c "blob"))
      (str2c "p1" ++ '#' :: str2c "s1")
      = some (str2c "blob") :=
  claim_C8 [] (str2c "k", str2c "p1") (str2c "s", str2c "s1")
    [(str2c "d", .num 3)] (fun _ => str2c "blob")
    (fun _ => some [(str2c "d", .num 3), (str2c "k", .str (str2c "p1")),
      (str2c "s", .str (str2c "s1"))])
    (by rfl)

/-- C9: readFileSync of the fs polyfill always returns a Promise, never
the file content directly; the promise resolves with the content when the
R2 binding is present and the normalized key exists, and rejects when the
binding is absent. -/
theorem claim_C9 (fw : FsWorld) (p : Chars) (enc : Option Chars) :
    (∃ out, fsp_readFileSync fw p enc = .promise out) ∧
    (∀ v, fsp_readFileSync fw p enc ≠ .direct v) ∧
    (∀ store bytes, fw.r2 = some store →
      getKV store (addBench fw.benchName (stripDotSlash p)) = some bytes →
      ∃ c : FileContent, fsp_readFileSync fw p enc = .promise (.ok c)) ∧
    (fw.r2 = none → ∃ e, fsp_readFileSync fw p enc = .promise (.error e)) := by
  refine ⟨⟨_, rfl⟩, ?_, ?_, ?_⟩
  · intro v h
    exact PromiseOr.noConfusion h
  · intro store bytes h1 h2
    unfold fsp_readFileSync fsp_readFile
    simp only [h1, h2]
    split
    · exact ⟨_, rfl⟩
    · split
      · exact ⟨_, rfl⟩
      · exact ⟨_, rfl⟩
  · intro h
    unfold fsp_readFileSync fsp_readFile
    rw [h]
    exact ⟨_, rfl⟩

/-! Error and success response shapes (claims C1 and C3). -/

/-- C1 (amended): when the benchmark handler throws, the two module worker
fetch handlers return HTTP 500 with a JSON body of the same shape as their
success response extended with an error field holding the message (the
measuring handler further appends stack, event and env fields); the
container server instead returns HTTP 500 with a body holding only the
error message and the stack. The handler outcome enters each response
builder exactly once, so no retry is attempted anywhere. -/
theorem claim_C1 :
    (∀ event msg e2 r2,
      plainFetch event (.error msg) = ⟨500, .json (plainErrorBody msg)⟩ ∧
      keysOf (plainErrorBody msg)
        = keysOf (plainSuccessBody e2 r2) ++ [str2c "error"] ∧
      getF (plainErrorBody msg) (str2c "error") = some (.str msg)) ∧
    (∀ event msg stack envV tb te micro heap reqId e2 r2,
      (measFetch event (.error (msg, stack)) tb te micro heap reqId envV).status
        = 500 ∧
      (∀ k, k ∈ keysOf (measSuccessBody e2 r2 tb te micro heap reqId) →
        k ∈ keysOf (measErrorBody msg stack event envV tb te micro)) ∧
      getF (measErrorBody msg stack event envV tb te micro) (str2c "error")
        = some (.str msg)) ∧
    (∀ event msg stack tb te heap reqId,
      containerRespond event (.error (msg, stack)) tb te heap reqId
        = ⟨500, .json (containerErrorBody msg stack)⟩ ∧
      keysOf (containerErrorBody msg stack)
        = str2c "error" ::
            (match stack with | some _ => [str2c "stack"] | none => [])) := by
  refine ⟨?_, ?_, ?_⟩
  · intro event msg e2 r2
    exact ⟨rfl, rfl, rfl⟩
  · intro event msg stack envV tb te micro heap reqId e2 r2
    refine ⟨rfl, ?_, ?_⟩
    · intro k hk
      unfold measSuccessBody keysOf at hk
      unfold measErrorBody keysOf
      rw [List.map_append, List.map_append]
      refine List.mem_append_left _ (List.mem_append_left _ ?_)
      simp only [List.map_cons, List.map_nil, List.mem_cons,
        List.not_mem_nil, or_false] at hk ⊢
      tauto
    · rcases stack with _ | s
      · rfl
      · rfl
  · intro event msg stack tb te heap reqId
    rcases stack with _ | s
    · exact ⟨rfl, rfl⟩
    · exact ⟨rfl, rfl⟩

/-- C1 counterexample: at a concrete invocation of the container server in
which the benchmark handler throws, the response has status 500 but its
body has only the error and stack fields and in particular no begin field,
so the claim that every platform handler serializes errors into the
success response shape fails on the container path. -/
theorem claim_C1_counterexample :
    (containerRespond [] (.error (str2c "boom", some (str2c "trace")))
      0 0 0 (str2c "r")).status = 500 ∧
    getF (containerErrorBody (str2c "boom") (some (str2c "trace")))
      (str2c "begin") = none ∧
    getF (containerSuccessBody .null 0 0 0 (str2c "r")) (str2c "begin")
      = some (.num 0) ∧
    keysOf (containerErrorBody (str2c "boom") (some (str2c "trace")))
      = [str2c "error", str2c "stack"] :=
  ⟨rfl, rfl, rfl, rfl⟩

/-- C3: when the benchmark handler returns normally and the event has no
html key, both worker fetch handlers answer with a JSON body carrying
begin, end, results_time (plus compute_time in the measuring handler),
result (the benchmark output under output plus the optional measurement,
which the measuring handler always populates), is_cold and request_id. -/
theorem claim_C3 (event : JObj) (ret : JVal) (tb te micro : ℚ) (heap : Nat)
    (reqId : Chars) (envV : JVal)
    (hh : hasKeyF event (str2c "html") = false) :
    plainFetch event (.ok ret) = ⟨200, .json (plainSuccessBody event ret)⟩ ∧
    getF (plainSuccessBody event ret) (str2c "begin") = some (.str (str2c "0")) ∧
    getF (plainSuccessBody event ret) (str2c "end") = some (.str (str2c "0")) ∧
    getF (plainSuccessBody event ret) (str2c "results_time")
      = some (.str (str2c "0")) ∧
    getF (plainSuccessBody event ret) (str2c "result")
      = some (.obj (plainLogData event ret)) ∧
    getF (plainSuccessBody event ret) (str2c "is_cold") = some (.bool false) ∧
    getF (plainSuccessBody event ret) (str2c "request_id")
      = some (.str (str2c "0")) ∧
    getF (plainLogData event ret) (str2c "output") = some (jsOutput ret) ∧
    (∀ mv, retMeasurement ret = some mv →
      getF (plainLogData event ret) (str2c "measurement") = some mv) ∧
    measFetch event (.ok ret) tb te micro heap reqId envV
      = ⟨200, .json (measSuccessBody event ret tb te micro heap reqId)⟩ ∧
    getF (measSuccessBody event ret tb te micro heap reqId) (str2c "begin")
      = some (.num tb) ∧
    getF (measSuccessBody event ret tb te micro heap reqId) (str2c "end")
      = some (.num te) ∧
    getF (measSuccessBody event ret tb te micro heap reqId) (str2c "compute_time")
      = some (.num micro) ∧
    getF (measSuccessBody event ret tb te micro heap reqId) (str2c "results_time")
      = some (.num 0) ∧
    getF (measSuccessBody event ret tb te micro heap reqId) (str2c "result")
      = some (.obj (measLogData event ret heap)) ∧
    getF (measSuccessBody event ret tb te micro heap reqId) (str2c "is_cold")
      = some (.bool false) ∧
    getF (measSuccessBody event ret tb te micro heap reqId) (str2c "request_id")
      = some (.str reqId) ∧
    getF (measLogData event ret heap) (str2c "output") = some (jsOutput ret) ∧
    hasKeyF (measLogData event ret heap) (str2c "measurement") = true := by
  have hnone : getF event (str2c "html") = none :=
    getF_eq_none_of_not_hasKey _ _ hh
  have hkout : getF [(str2c "output", jsOutput ret)] (str2c "output")
      = some (jsOutput ret) := rfl
  have hne_om : str2c "output" ≠ str2c "measurement" := by decide
  have hne_ot : str2c "output" ≠ str2c "time" := by decide
  have hne_mt : str2c "measurement" ≠ str2c "time" := by decide
  refine ⟨?_, rfl, rfl, rfl, rfl, rfl, rfl, ?_, ?_, ?_, rfl, rfl, rfl, rfl, rfl,
    rfl, rfl, ?_, ?_⟩
  · unfold plainFetch
    rw [hnone]
    rfl
  · unfold plainLogData
    rcases hm : retMeasurement ret with _ | mv
    · by_cases hl : hasKeyF event (str2c "logs")
      · simp only [hl, if_true]
        rw [getF_setF_ne _ _ _ _ hne_ot]
        exact hkout
      · simp only [hl, Bool.false_eq_true, if_false]
        exact hkout
    · by_cases hl : hasKeyF event (str2c "logs")
      · simp only [hl, if_true]
        rw [getF_setF_ne _ _ _ _ hne_ot, getF_setF_ne _ _ _ _ hne_om]
        exact hkout
      · simp only [hl, Bool.false_eq_true, if_false]
        rw [getF_setF_ne _ _ _ _ hne_om]
        exact hkout
  · intro mv hm
    unfold plainLogData
    rw [hm]
    by_cases hl : hasKeyF event (str2c "logs")
    · simp only [hl, if_true]
      rw [getF_setF_ne _ _ _ _ hne_mt]
      exact getF_setF_self _ _ _
    · simp only [hl, Bool.false_eq_true, if_false]
      exact getF_setF_self _ _ _
  · unfold measFetch
    rw [hnone]
    rfl
  · unfold measLogData
    by_cases hl : hasKeyF event (str2c "logs")
    · simp only [hl, if_true]
      rw [getF_setF_ne _ _ _ _ hne_ot, getF_setF_ne _ _ _ _ hne_om]
      exact hkout
    · simp only [hl, Bool.false_eq_true, if_false]
      rw [getF_setF_ne _ _ _ _ hne_om]
      exact hkout
  · unfold measLogData
    by_cases hl : hasKeyF event (str2c "logs")
    · simp only [hl, if_true]
      exact hasKeyF_setF_mono _ _ _ _ (hasKeyF_setF_self _ _ _)
    · simp only [hl, Bool.false_eq_true, if_false]
      exact hasKeyF_setF_self _ _ _

theorem claim_C3_witness :
    plainFetch [] (.ok .null) = ⟨200, .json (plainSuccessBody [] .null)⟩ ∧
    getF (plainSuccessBody [] .null) (str2c "begin") = some (.str (str2c "0")) ∧
    getF (plainSuccessBody [] .null) (str2c "end") = some (.str (str2c "0")) ∧
    getF (plainSuccessBody [] .null) (str2c "results_time")
      = some (.str (str2c "0")) ∧
    getF (plainSuccessBody [] .null) (str2c "result")
      = some (.obj (plainLogData [] .null)) ∧
    getF (plainSuccessBody [] .null) (str2c "is_cold") = some (.bool false) ∧
    getF (plainSuccessBody [] .null) (str2c "request_id")
      = some (.str (str2c "0")) ∧
    getF (plainLogData [] .null) (str2c "output") = some (jsOutput .null) ∧
    (∀ mv, retMeasurement .null = some mv →
      getF (plainLogData [] .null) (str2c "measurement") = some mv) ∧
    measFetch [] (.ok .null) 0 0 0 0 (str2c "r") .null
      = ⟨200, .json (measSuccessBody [] .null 0 0 0 0 (str2c "r"))⟩ ∧
    getF (measSuccessBody [] .null 0 0 0 0 (str2c "r")) (str2c "begin")
      = some (.num 0) ∧
    getF (measSuccessBody [] .null 0 0 0 0 (str2c "r")) (str2c "end")
      = some (.num 0) ∧
    getF (measSuccessBody [] .null 0 0 0 0 (str2c "r")) (str2c "compute_time")
      = some (.num 0) ∧
    getF (measSuccessBody [] .null 0 0 0 0 (str2c "r")) (str2c "results_time")
      = some (.num 0) ∧
    getF (measSuccessBody [] .null 0 0 0 0 (str2c "r")) (str2c "result")
      = some (.obj (measLogData [] .null 0)) ∧
    getF (measSuccessBody [] .null 0 0 0 0 (str2c "r")) (str2c "is_cold")
      = some (.bool false) ∧
    getF (measSuccessBody [] .null 0 0 0 0 (str2c "r")) (str2c "request_id")
      = some (.str (str2c "r")) ∧
    getF (measLogData [] .null 0) (str2c "output") = some (jsOutput .null) ∧
    hasKeyF (measLogData [] .null 0) (str2c "measurement") = true :=
  claim_C3 [] .null 0 0 0 0 (str2c "r") .null rfl

/-! Splitting lemmas and the event-construction claim C4. -/

theorem splitCh_sepFree (sep : Char) (cs : Chars) (h : ∀ c ∈ cs, c ≠ sep) :
    splitCh sep cs = [cs] := by
  induction cs with
  | nil => rfl
  | cons c rest ih =>
    have hc : c ≠ sep := h c (List.mem_cons_self c rest)
    have ih2 := ih (fun x hx => h x (List.mem_cons_of_mem c hx))
    unfold splitCh
    rw [ih2]
    simp [hc]

theorem splitCh_append_sepFree (sep : Char) (l1 l2 : Chars)
    (h : ∀ c ∈ l1, c ≠ sep) :
    splitCh sep (l1 ++ sep :: l2) = l1 :: splitCh sep l2 := by
  induction l1 with
  | nil =>
    show splitCh sep (sep :: l2) = [] :: splitCh sep l2
    rcases h2 : splitCh sep l2 with _ | ⟨g, gs⟩
    · exact absurd h2 (splitCh_ne_nil sep l2)
    · simp [splitCh, h2]
  | cons c rest ih =>
    have hc : c ≠ sep := h c (List.mem_cons_self c rest)
    have ih2 := ih (fun x hx => h x (List.mem_cons_of_mem c hx))
    show splitCh sep (c :: (rest ++ sep :: l2)) = (c :: rest) :: splitCh sep l2
    conv_lhs => rw [splitCh]
    rw [ih2]
    simp [hc]

theorem queryStep_eq_setF (ev : JObj) (p : Chars) :
    ∃ v, queryStep ev p = setF ev ((splitCh '=' p).headD []) v := by
  unfold queryStep
  rcases h : (splitCh '=' p)[1]? with _ | v
  · refine ⟨.null, ?_⟩
    simp only [h]
  · refine ⟨workerQueryVal v, ?_⟩
    simp only [h]

theorem keys_foldl_queryStep (ps : List Chars) (ev : JObj) (j : Chars)
    (h : j ∈ keysOf ev) : j ∈ keysOf (ps.foldl queryStep ev) := by
  induction ps generalizing ev with
  | nil => exact h
  | cons p rest ih =>
    show j ∈ keysOf (rest.foldl queryStep (queryStep ev p))
    apply ih
    rcases queryStep_eq_setF ev p with ⟨v, hv⟩
    rw [hv]
    exact mem_keysOf_setF_mono _ _ _ _ h

theorem queryKey_mem_foldl (ps : List Chars) (p : Chars) (hp : p ∈ ps) :
    ∀ ev, (splitCh '=' p).headD [] ∈ keysOf (ps.foldl queryStep ev) := by
  induction ps with
  | nil => cases hp
  | cons q rest ih =>
    intro ev
    rcases List.mem_cons.mp hp with rfl | hmem
    · show _ ∈ keysOf (rest.foldl queryStep (queryStep ev p))
      apply keys_foldl_queryStep
      rcases queryStep_eq_setF ev p with ⟨v, hv⟩
      rw [hv]
      exact mem_keysOf_setF _ _ _
    · exact ih hmem (queryStep ev q)

theorem getF_some_mem_keys (ev : JObj) (k : Chars) (v : JVal)
    (h : getF ev k = some v) : k ∈ keysOf ev := by
  unfold getF getKV at h
  rcases hf : ev.find? (fun p => p.1 = k) with _ | pr
  · rw [hf] at h; cases h
  · have hp1 := List.find?_some hf
    simp only [decide_eq_true_eq] at hp1
    exact hp1 ▸ List.mem_map.mpr ⟨pr, List.mem_of_find?_eq_some hf, rfl⟩

theorem containerStep_keys_mono (ev : JObj) (kv : Chars × Chars) (j : Chars)
    (h : j ∈ keysOf ev) : j ∈ keysOf (containerQueryStep ev kv) := by
  unfold containerQueryStep
  cases ht : truthyOpt (getF ev kv.1) with
  | true =>
    simp only [ht, if_true]
    exact h
  | false =>
    rcases hpi : jsParseIntAuto kv.2 with _ | n
    · simp only [ht, hpi, Bool.false_eq_true, if_false]
      exact mem_keysOf_setF_mono _ _ _ _ h
    · simp only [ht, hpi, Bool.false_eq_true, if_false]
      exact mem_keysOf_setF_mono _ _ _ _ h

theorem containerStep_key_mem (ev : JObj) (kv : Chars × Chars) :
    kv.1 ∈ keysOf (containerQueryStep ev kv) := by
  unfold containerQueryStep
  cases ht : truthyOpt (getF ev kv.1) with
  | true =>
    simp only [ht, if_true]
    rcases hg : getF ev kv.1 with _ | v
    · rw [hg] at ht
      exact absurd ht (by simp [truthyOpt])
    · exact getF_some_mem_keys ev kv.1 v hg
  | false =>
    rcases hpi : jsParseIntAuto kv.2 with _ | n
    · simp only [ht, hpi, Bool.false_eq_true, if_false]
      exact mem_keysOf_setF _ _ _
    · simp only [ht, hpi, Bool.false_eq_true, if_false]
      exact mem_keysOf_setF _ _ _

theorem keys_foldl_containerStep (ps : List (Chars × Chars)) (ev : JObj)
    (j : Chars) (h : j ∈ keysOf ev) :
    j ∈ keysOf (ps.foldl containerQueryStep ev) := by
  induction ps generalizing ev with
  | nil => exact h
  | cons p rest ih =>
    show j ∈ keysOf (rest.foldl containerQueryStep (containerQueryStep ev p))
    exact ih _ (containerStep_keys_mono ev p j h)

theorem containerKey_mem_foldl (ps : List (Chars × Chars)) (kv : Chars × Chars)
    (hp : kv ∈ ps) : ∀ ev, kv.1 ∈ keysOf (ps.foldl containerQueryStep ev) := by
  induction ps with
  | nil => cases hp
  | cons q rest ih =>
    intro ev
    rcases List.mem_cons.mp hp with rfl | hmem
    · show _ ∈ keysOf (rest.foldl containerQueryStep (containerQueryStep ev kv))
      exact keys_foldl_containerStep _ _ _ (containerStep_key_mem ev kv)
    · exact ih hmem (containerQueryStep ev q)

/-- C4 (amended): both event builders contain every key of the JSON body
and every key of the query string, and set request-id and
income-timestamp afterwards. In the worker handlers a query value whose
JS Number conversion is finite is stored as a JS number (NaN for values
such as the empty string whose parseInt is NaN) and any other value as a
string (the decoded value, or the raw value when decoding throws), a pair
without an equals sign storing null. In the container server a query key
whose event value is already truthy is skipped, and a value is stored as
the integer parseInt yields when that is not NaN — even for values such
as 12abc that are not numerals — and as the raw string otherwise. -/
theorem claim_C4 :
    (∀ url body reqId ts,
      getF (workerEvent url body reqId ts) (str2c "request-id") = some reqId ∧
      getF (workerEvent url body reqId ts) (str2c "income-timestamp")
        = some (.num (ts : ℚ))) ∧
    (∀ url body reqId ts k, k ∈ keysOf (body.getD []) →
      k ∈ keysOf (workerEvent url body reqId ts)) ∧
    (∀ url body reqId ts q p, (splitCh '?' url)[1]? = some q →
      p ∈ splitCh '&' q →
      (splitCh '=' p).headD [] ∈ keysOf (workerEvent url body reqId ts)) ∧
    (∀ body sparams reqId ts,
      getF (containerEvent body sparams reqId ts) (str2c "request-id")
        = some (.str reqId) ∧
      getF (containerEvent body sparams reqId ts) (str2c "income-timestamp")
        = some (.num (ts : ℚ))) ∧
    (∀ body sparams reqId ts k, k ∈ keysOf (body.getD []) →
      k ∈ keysOf (containerEvent body sparams reqId ts)) ∧
    (∀ body sparams reqId ts kv, kv ∈ sparams →
      kv.1 ∈ keysOf (containerEvent body sparams reqId ts)) ∧
    (∀ ev k v, (∀ c ∈ k, c ≠ '=') → (∀ c ∈ v, c ≠ '=') →
      queryStep ev (k ++ '=' :: v) = setF ev k (workerQueryVal v)) ∧
    (∀ ev k, (∀ c ∈ k, c ≠ '=') → queryStep ev k = setF ev k .null) ∧
    (∀ v q, jsNumber v = some q →
      workerQueryVal v = .nan ∨ ∃ n : ℚ, workerQueryVal v = .num n) ∧
    (∀ v, jsNumber v = none → ∃ s, workerQueryVal v = .str s) ∧
    (∀ ev k v, truthyOpt (getF ev k) = false →
      containerQueryStep ev (k, v)
        = setF ev k (match jsParseIntAuto v with
            | some n => .num (n : ℚ)
            | none => .str v)) ∧
    (∀ ev k v, truthyOpt (getF ev k) = true →
      containerQueryStep ev (k, v) = ev) := by
  have hne : str2c "request-id" ≠ str2c "income-timestamp" := by decide
  refine ⟨?_, ?_, ?_, ?_, ?_, ?_, ?_, ?_, ?_, ?_, ?_, ?_⟩
  · intro url body reqId ts
    constructor
    · unfold workerEvent
      rw [getF_setF_ne _ _ _ _ hne]
      exact getF_setF_self _ _ _
    · unfold workerEvent
      exact getF_setF_self _ _ _
  · intro url body reqId ts k hk
    unfold workerEvent
    apply mem_keysOf_setF_mono
    apply mem_keysOf_setF_mono
    rcases hq : (splitCh '?' url)[1]? with _ | q
    · exact hk
    · exact keys_foldl_queryStep _ _ _ hk
  · intro url body reqId ts q p hq hp
    unfold workerEvent
    apply mem_keysOf_setF_mono
    apply mem_keysOf_setF_mono
    rw [hq]
    exact queryKey_mem_foldl _ _ hp _
  · intro body sparams reqId ts
    constructor
    · unfold containerEvent
      rw [getF_setF_ne _ _ _ _ hne]
      exact getF_setF_self _ _ _
    · unfold containerEvent
      exact getF_setF_self _ _ _
  · intro body sparams reqId ts k hk
    unfold containerEvent
    apply mem_keysOf_setF_mono
    apply mem_keysOf_setF_mono
    exact keys_foldl_containerStep _ _ _ hk
  · intro body sparams reqId ts kv hkv
    unfold containerEvent
    apply mem_keysOf_setF_mono
    apply mem_keysOf_setF_mono
    exact containerKey_mem_foldl _ _ hkv _
  · intro ev k v hk hv
    unfold queryStep
    rw [splitCh_append_sepFree '=' k v hk, splitCh_sepFree '=' v hv]
    rfl
  · intro ev k hk
    unfold queryStep
    rw [splitCh_sepFree '=' k hk]
    rfl
  · intro v q h
    unfold workerQueryVal
    simp only [h]
    by_cases hd : q.den = 1
    · rw [if_pos hd]
      rcases hp : jsParseIntDec v with _ | n
      · simp only [hp]
        exact Or.inl trivial
      · simp only [hp]
        exact Or.inr ⟨(n : ℚ), rfl⟩
    · rw [if_neg hd]
      exact Or.inr ⟨q, rfl⟩
  · intro v h
    unfold workerQueryVal
    simp only [h]
    rcases hdec : jsDecodeURIComponent v with _ | s
    · simp only [hdec]
      exact ⟨v, rfl⟩
    · simp only [hdec]
      exact ⟨s, rfl⟩
  · intro ev k v h
    unfold containerQueryStep
    rcases hpi : jsParseIntAuto v with _ | n
    · simp only [h, hpi, Bool.false_eq_true, if_false]
    · simp only [h, hpi, Bool.false_eq_true, if_false]
  · intro ev k v h
    unfold containerQueryStep
    simp only [h, if_true]

/-- C4 counterexample: at the concrete query pair a=12abc the container
event builder stores the number 12 even though 12abc does not convert to a
finite JS number (Number gives NaN), because it uses parseInt, which
accepts trailing garbage; the claim that such a value is stored as a
string therefore fails on the container event builder. -/
theorem claim_C4_counterexample :
    getF (containerEvent none [(['a'], str2c "12abc")] (str2c "r") 0) ['a']
      = some (.num ((12 : Int) : ℚ)) ∧
    jsNumber (str2c "12abc") = none ∧
    ((12 : Int) : ℚ) = 12 ∧
    (JVal.num ((12 : Int) : ℚ)) ≠ JVal.str (str2c "12abc") := by
  refine ⟨rfl, rfl, by norm_num, ?_⟩
  intro h
  exact JVal.noConfusion h

/-! The storage download claim C6. -/

/-- C6: when the R2 binding is present and the object exists, download
returns normally, the bytes of the object end up in the file at the
target path (the path itself when it already starts with /tmp, its
re-rooting under /tmp otherwise), the path is recorded in written_files,
and the object store is untouched. -/
theorem claim_C6 (st : storageInst) (w : StoreWorld) (bucket key fp : Chars)
    (b : Bytes) (hh : st.hasHandle = true) (hobj : getKV w.r2 key = some b) :
    ∃ st2 w2,
      storage.download st w bucket key fp = .ok (st2, w2) ∧
      fp ∈ st2.written_files ∧
      w2.fs = setKV w.fs
        (if fp.take 4 = str2c "/tmp" then fp
         else nodeJoin2 (str2c "/tmp") (nodeResolve1 fp)) b ∧
      getKV w2.fs
        (if fp.take 4 = str2c "/tmp" then fp
         else nodeJoin2 (str2c "/tmp") (nodeResolve1 fp)) = some b ∧
      w2.r2 = w.r2 := by
  unfold storage.download storage.download_stream
  simp only [hh, if_true, hobj]
  refine ⟨_, _, rfl, ?_, rfl, getKV_setKV_self _ _ _, rfl⟩
  by_cases hw : fp ∈ st.written_files
  · simp [hw]
  · simp [hw]

theorem claim_C6_witness :
    ∃ st2 w2,
      storage.download ⟨0, true, []⟩ ⟨[], [(str2c "k", [1, 2])]⟩ []
        (str2c "k") (str2c "out.txt") = .ok (st2, w2) ∧
      str2c "out.txt" ∈ st2.written_files ∧
      w2.fs = setKV ([] : List (Chars × Bytes))
        (if (str2c "out.txt").take 4 = str2c "/tmp" then str2c "out.txt"
         else nodeJoin2 (str2c "/tmp") (nodeResolve1 (str2c "out.txt"))) [1, 2] ∧
      getKV w2.fs
        (if (str2c "out.txt").take 4 = str2c "/tmp" then str2c "out.txt"
         else nodeJoin2 (str2c "/tmp") (nodeResolve1 (str2c "out.txt")))
        = some [1, 2] ∧
      w2.r2 = [(str2c "k", [1, 2])] :=
  claim_C6 ⟨0, true, []⟩ ⟨[], [(str2c "k", [1, 2])]⟩ [] (str2c "k")
    (str2c "out.txt") [1, 2] rfl rfl

/-! Path lemmas for the upload claim C2: on paths whose segments are
plain, the node parse, join and normalize functions behave as plain
string surgery. -/

theorem takeWhile_of_all (p : Char → Bool) :
    ∀ (l : Chars), (∀ a ∈ l, p a = true) → l.takeWhile p = l
  | [], _ => rfl
  | a :: t, h => by
    rw [List.takeWhile_cons_of_pos (h a (List.mem_cons_self a t)),
      takeWhile_of_all p t (fun x hx => h x (List.mem_cons_of_mem a hx))]

theorem dropWhile_of_all (p : Char → Bool) :
    ∀ (l : Chars), (∀ a ∈ l, p a = true) → l.dropWhile p = []
  | [], _ => rfl
  | a :: t, h => by
    rw [List.dropWhile_cons_of_pos (h a (List.mem_cons_self a t)),
      dropWhile_of_all p t (fun x hx => h x (List.mem_cons_of_mem a hx))]

theorem getLast?_mem_chars (l : Chars) (c : Char) (h : l.getLast? = some c) :
    c ∈ l := by
  rw [List.getLast?_eq_head?_reverse] at h
  rcases hr : l.reverse with _ | ⟨a, t⟩
  · rw [hr] at h; cases h
  · rw [hr] at h
    injection h with h2
    have ha : a ∈ l.reverse := hr ▸ List.mem_cons_self a t
    rw [← h2]
    exact List.mem_reverse.mp ha

theorem interc_cons_ne (sep : Char) (s : Chars) (ss : List Chars)
    (hss : ss ≠ []) : interc sep (s :: ss) = s ++ sep :: interc sep ss := by
  rcases ss with _ | ⟨s2, ss2⟩
  · exact absurd rfl hss
  · rfl

theorem interc_ne_nil (sep : Char) (s : Chars) (ss : List Chars) (hs : s ≠ []) :
    interc sep (s :: ss) ≠ [] := by
  rcases ss with _ | ⟨s2, ss2⟩
  · exact hs
  · simp [interc_cons_ne sep s (s2 :: ss2) (by simp), hs]

theorem interc_append_last (sep : Char) :
    ∀ (xs : List Chars) (b : Chars), xs ≠ [] →
      interc sep (xs ++ [b]) = interc sep xs ++ sep :: b
  | [], _, hxs => absurd rfl hxs
  | [x], b, _ => rfl
  | x :: y :: rest2, b, _ => by
    have ih2 := interc_append_last sep (y :: rest2) b (by simp)
    show interc sep (x :: ((y :: rest2) ++ [b]))
      = interc sep (x :: y :: rest2) ++ sep :: b
    rw [interc_cons_ne sep x ((y :: rest2) ++ [b]) (by simp),
        interc_cons_ne sep x (y :: rest2) (by simp), ih2]
    simp

theorem interc_concat_append (sep : Char) (xs : List Chars) (a b2 : Chars) :
    interc sep (xs ++ [a ++ b2]) = interc sep (xs ++ [a]) ++ b2 := by
  rcases xs with _ | ⟨x, xt⟩
  · rfl
  · rw [interc_append_last sep (x :: xt) (a ++ b2) (by simp),
      interc_append_last sep (x :: xt) a (by simp)]
    simp

theorem splitCh_interc (sep : Char) :
    ∀ (segs : List Chars), segs ≠ [] →
      (∀ s ∈ segs, ∀ c ∈ s, c ≠ sep) →
      splitCh sep (interc sep segs) = segs
  | [], h, _ => absurd rfl h
  | [s], _, h => splitCh_sepFree sep s (h s (List.mem_cons_self s []))
  | s :: s2 :: ss, _, h => by
    rw [interc_cons_ne sep s (s2 :: ss) (by simp),
      splitCh_append_sepFree sep s _ (h s (List.mem_cons_self _ _)),
      splitCh_interc sep (s2 :: ss) (by simp)
        (fun x hx c hc => h x (List.mem_cons_of_mem s hx) c hc)]

theorem splitCh_cons_sep (sep : Char) (cs : Chars) :
    splitCh sep (sep :: cs) = [] :: splitCh sep cs := by
  rcases h : splitCh sep cs with _ | ⟨g, gs⟩
  · exact absurd h (splitCh_ne_nil sep cs)
  · simp [splitCh, h]

theorem interc_getLast_ne_slash (segs : List Chars) (hne : segs ≠ [])
    (h : ∀ s ∈ segs, plainSeg s) :
    (interc '/' segs).getLast? ≠ some '/' := by
  rcases List.eq_nil_or_concat' segs with h0 | ⟨L, b, hLb⟩
  · exact absurd h0 hne
  · have hb : plainSeg b := h b (by
      rw [hLb]
      exact List.mem_append_right _ (List.mem_cons_self _ _))
    have hlastP : (interc '/' segs).getLast? = b.getLast? := by
      rw [hLb]
      rcases L with _ | ⟨l0, Lt⟩
      · rfl
      · rw [interc_append_last '/' (l0 :: Lt) b (by simp),
          List.getLast?_append_of_ne_nil _ (by simp)]
        exact List.getLast?_append_of_ne_nil ['/'] hb.1
    intro hc
    rw [hlastP] at hc
    exact hb.2.1 (getLast?_mem_chars b '/' hc)

theorem normStep_nil_nil (u : Bool) : normStep u [] [] = [] := by
  unfold normStep
  rw [if_pos (Or.inl rfl)]

theorem foldl_normStep_id (u : Bool) :
    ∀ (segs : List Chars) (acc : List Chars),
      (∀ s ∈ segs, s ≠ [] ∧ s ≠ ['.'] ∧ s ≠ ['.', '.']) →
      segs.foldl (normStep u) acc = acc ++ segs
  | [], acc, _ => by simp
  | s :: ss, acc, h => by
    have hs := h s (List.mem_cons_self s ss)
    have hstep : normStep u acc s = acc ++ [s] := by
      unfold normStep
      rw [if_neg (not_or.mpr ⟨hs.1, hs.2.1⟩), if_neg hs.2.2]
    show ss.foldl (normStep u) (normStep u acc s) = acc ++ s :: ss
    rw [hstep,
      foldl_normStep_id u ss (acc ++ [s])
        (fun x hx => h x (List.mem_cons_of_mem s hx))]
    simp

theorem nodeNormalize_sane (segs : List Chars) (hne : segs ≠ [])
    (h : ∀ s ∈ segs, plainSeg s) :
    nodeNormalize (interc '/' segs) = interc '/' segs := by
  obtain ⟨s0, ss, rfl⟩ : ∃ s0 ss, segs = s0 :: ss := by
    rcases segs with _ | ⟨a, t⟩
    · exact absurd rfl hne
    · exact ⟨a, t, rfl⟩
  have hs0 : plainSeg s0 := h s0 (List.mem_cons_self _ _)
  obtain ⟨c0, s0t, rfl⟩ : ∃ c0 s0t, s0 = c0 :: s0t := by
    rcases hs : s0 with _ | ⟨a, t⟩
    · exact absurd hs hs0.1
    · exact ⟨a, t, rfl⟩
  have hc0 : c0 ≠ '/' := fun hc => hs0.2.1 (hc ▸ List.mem_cons_self _ _)
  have hp_ne : interc '/' ((c0 :: s0t) :: ss) ≠ [] :=
    interc_ne_nil '/' _ ss (by simp)
  have hhead : (interc '/' ((c0 :: s0t) :: ss)).head? = some c0 := by
    rcases ss with _ | ⟨s2, ss2⟩
    · rfl
    · rw [interc_cons_ne '/' _ _ (by simp)]
      rfl
  have hAbs : decide ((interc '/' ((c0 :: s0t) :: ss)).head? = some '/')
      = false := by
    rw [hhead]
    exact decide_eq_false (by intro hx; injection hx with hx2; exact hc0 hx2)
  rcases List.eq_nil_or_concat' ((c0 :: s0t) :: ss) with h0 | ⟨L, b, hLb⟩
  · cases h0
  have hbmem : b ∈ (c0 :: s0t) :: ss := by
    rw [hLb]; exact List.mem_append_right _ (List.mem_cons_self _ _)
  have hb : plainSeg b := h b hbmem
  have hlastP : (interc '/' ((c0 :: s0t) :: ss)).getLast? = b.getLast? := by
    rw [hLb]
    rcases L with _ | ⟨l0, Lt⟩
    · rfl
    · rw [interc_append_last '/' (l0 :: Lt) b (by simp),
        List.getLast?_append_of_ne_nil _ (by simp)]
      exact List.getLast?_append_of_ne_nil ['/'] hb.1
  have hTrail : decide ((interc '/' ((c0 :: s0t) :: ss)).getLast? = some '/')
      = false := by
    refine decide_eq_false ?_
    intro hc
    rw [hlastP] at hc
    exact hb.2.1 (getLast?_mem_chars b '/' hc)
  have hsplit : splitCh '/' (interc '/' ((c0 :: s0t) :: ss))
      = (c0 :: s0t) :: ss :=
    splitCh_interc '/' _ (by simp)
      (fun s hs c hc hceq => (h s hs).2.1 (hceq ▸ hc))
  have hid : ((c0 :: s0t) :: ss).foldl (normStep true) []
      = (c0 :: s0t) :: ss := by
    rw [foldl_normStep_id true _ []
      (fun s hs => ⟨(h s hs).1, (h s hs).2.2.1, (h s hs).2.2.2⟩)]
    simp
  unfold nodeNormalize normSegs
  rw [if_neg hp_ne]
  simp only [hAbs, hTrail, Bool.not_false, hsplit, hid, Bool.false_eq_true,
    if_false]
  rw [if_neg hp_ne]

theorem nodeNormalize_abs (segs : List Chars) (hne : segs ≠ [])
    (h : ∀ s ∈ segs, plainSeg s) :
    nodeNormalize ('/' :: interc '/' segs) = '/' :: interc '/' segs := by
  have hX : interc '/' segs ≠ [] := by
    rcases segs with _ | ⟨s0, ss⟩
    · exact absurd rfl hne
    · exact interc_ne_nil '/' s0 ss (h s0 (List.mem_cons_self _ _)).1
  have hp_ne : ('/' :: interc '/' segs) ≠ [] := by simp
  have hAbs : decide (('/' :: interc '/' segs).head? = some '/') = true := by
    rw [List.head?_cons]
    exact decide_eq_true rfl
  have hlast : ('/' :: interc '/' segs).getLast? = (interc '/' segs).getLast? :=
    List.getLast?_append_of_ne_nil ['/'] hX
  have hTrail : decide (('/' :: interc '/' segs).getLast? = some '/') = false := by
    refine decide_eq_false ?_
    intro hc
    exact interc_getLast_ne_slash segs hne h (hlast ▸ hc)
  have hsplit : splitCh '/' ('/' :: interc '/' segs) = [] :: segs := by
    rw [splitCh_cons_sep, splitCh_interc '/' segs hne
      (fun s hs c hc hceq => (h s hs).2.1 (hceq ▸ hc))]
  have hid : ([] :: segs).foldl (normStep false) [] = segs := by
    show segs.foldl (normStep false) (normStep false [] []) = segs
    rw [normStep_nil_nil,
      foldl_normStep_id false segs []
        (fun s hs => ⟨(h s hs).1, (h s hs).2.2.1, (h s hs).2.2.2⟩)]
    simp
  unfold nodeNormalize normSegs
  rw [if_neg hp_ne]
  simp only [hAbs, hTrail, Bool.not_true, hsplit, hid, Bool.false_eq_true,
    if_false, if_true]
  rw [if_neg hX]

theorem nodeNormalize_abs2 (segs : List Chars) (hne : segs ≠ [])
    (h : ∀ s ∈ segs, plainSeg s) :
    nodeNormalize ('/' :: '/' :: interc '/' segs) = '/' :: interc '/' segs := by
  have hX : interc '/' segs ≠ [] := by
    rcases segs with _ | ⟨s0, ss⟩
    · exact absurd rfl hne
    · exact interc_ne_nil '/' s0 ss (h s0 (List.mem_cons_self _ _)).1
  have hp_ne : ('/' :: '/' :: interc '/' segs) ≠ [] := by simp
  have hAbs : decide (('/' :: '/' :: interc '/' segs).head? = some '/')
      = true := by
    rw [List.head?_cons]
    exact decide_eq_true rfl
  have hlast : ('/' :: '/' :: interc '/' segs).getLast?
      = (interc '/' segs).getLast? :=
    List.getLast?_append_of_ne_nil ['/', '/'] hX
  have hTrail : decide (('/' :: '/' :: interc '/' segs).getLast? = some '/')
      = false := by
    refine decide_eq_false ?_
    intro hc
    exact interc_getLast_ne_slash segs hne h (hlast ▸ hc)
  have hsplit : splitCh '/' ('/' :: '/' :: interc '/' segs)
      = [] :: [] :: segs := by
    rw [splitCh_cons_sep, splitCh_cons_sep, splitCh_interc '/' segs hne
      (fun s hs c hc hceq => (h s hs).2.1 (hceq ▸ hc))]
  have hid : ([] :: [] :: segs).foldl (normStep false) [] = segs := by
    show ([] :: segs).foldl (normStep false) (normStep false [] []) = segs
    rw [normStep_nil_nil]
    show segs.foldl (normStep false) (normStep false [] []) = segs
    rw [normStep_nil_nil,
      foldl_normStep_id false segs []
        (fun s hs => ⟨(h s hs).1, (h s hs).2.2.1, (h s hs).2.2.2⟩)]
    simp
  unfold nodeNormalize normSegs
  rw [if_neg hp_ne]
  simp only [hAbs, hTrail, Bool.not_true, hsplit, hid, Bool.false_eq_true,
    if_false, if_true]
  rw [if_neg hX]

theorem nodeJoin2_decomp (dsegs : List Chars) (b : Chars)
    (hd : ∀ s ∈ dsegs, plainSeg s) (hb : plainSeg b) :
    nodeJoin2 (interc '/' dsegs) b = interc '/' (dsegs ++ [b]) := by
  rcases dsegs with _ | ⟨d0, dt⟩
  · show nodeJoin2 [] b = interc '/' [b]
    unfold nodeJoin2
    rw [if_neg (by intro hc; exact hb.1 hc.2), if_pos rfl]
    exact nodeNormalize_sane [b] (by simp) (by intro s hs; rw [List.mem_singleton.mp hs]; exact hb)
  · have hd0 : plainSeg d0 := hd d0 (List.mem_cons_self _ _)
    have hD : interc '/' (d0 :: dt) ≠ [] := interc_ne_nil '/' d0 dt hd0.1
    unfold nodeJoin2
    rw [if_neg (by intro hc; exact hD hc.1), if_neg hD, if_neg hb.1]
    rw [show interc '/' (d0 :: dt) ++ '/' :: b = interc '/' ((d0 :: dt) ++ [b])
      from (interc_append_last '/' (d0 :: dt) b (by simp)).symm]
    refine nodeNormalize_sane _ (by simp) ?_
    intro s hs
    rcases List.mem_append.mp hs with hs2 | hs2
    · exact hd s hs2
    · rw [List.mem_singleton.mp hs2]
      exact hb

theorem nodeJoin2_decomp_gen (rt : Chars) (dsegs : List Chars) (b : Chars)
    (hrt : rt = [] ∨ rt = ['/'])
    (hd : ∀ s ∈ dsegs, plainSeg s) (hb : plainSeg b) :
    nodeJoin2 (if dsegs = [] then rt else rt ++ interc '/' dsegs) b
      = rt ++ interc '/' (dsegs ++ [b]) := by
  rcases hrt with rfl | rfl
  · rcases dsegs with _ | ⟨d0, dt⟩
    · rw [if_pos rfl]
      exact nodeJoin2_decomp [] b (by intro s hs; cases hs) hb
    · rw [if_neg (by simp)]
      simp only [List.nil_append]
      exact nodeJoin2_decomp (d0 :: dt) b hd hb
  · rcases dsegs with _ | ⟨d0, dt⟩
    · rw [if_pos rfl]
      unfold nodeJoin2
      rw [if_neg (by simp), if_neg (by simp), if_neg hb.1]
      exact nodeNormalize_abs2 [b] (by simp)
        (by intro s hs; rw [List.mem_singleton.mp hs]; exact hb)
    · rw [if_neg (by simp)]
      unfold nodeJoin2
      rw [if_neg (by simp), if_neg (by simp), if_neg hb.1]
      have happ : (['/'] ++ interc '/' (d0 :: dt)) ++ '/' :: b
          = '/' :: interc '/' ((d0 :: dt) ++ [b]) := by
        rw [interc_append_last '/' (d0 :: dt) b (by simp)]
        simp
      rw [happ]
      show nodeNormalize ('/' :: interc '/' ((d0 :: dt) ++ [b]))
        = '/' :: interc '/' ((d0 :: dt) ++ [b])
      refine nodeNormalize_abs ((d0 :: dt) ++ [b]) (by simp) ?_
      intro s hs
      rcases List.mem_append.mp hs with h2 | h2
      · exact hd s h2
      · rw [List.mem_singleton.mp h2]
        exact hb

theorem nodeParse_decomp (rt : Chars) (dsegs : List Chars) (nm ext : Chars)
    (hrt : rt = [] ∨ rt = ['/'])
    (hd : ∀ s ∈ dsegs, plainSeg s)
    (hbase : plainSeg (nm ++ ext))
    (hnm : nm ≠ [])
    (hcase : (ext = [] ∧ ∀ c ∈ nm.drop 1, c ≠ '.')
           ∨ (∃ t, ext = '.' :: t ∧ ∀ c ∈ t, c ≠ '.')) :
    nodeParse (rt ++ interc '/' (dsegs ++ [nm ++ ext]))
      = ⟨(if dsegs = [] then rt else rt ++ interc '/' dsegs), nm, ext⟩ := by
  have hbase_ne : nm ++ ext ≠ [] := hbase.1
  have hbase_noslash : ∀ c ∈ nm ++ ext, c ≠ '/' := by
    intro c hc hceq
    exact hbase.2.1 (hceq ▸ hc)
  obtain ⟨cb, bt, hcb⟩ : ∃ cb bt, (nm ++ ext).reverse = cb :: bt := by
    rcases hr : (nm ++ ext).reverse with _ | ⟨a, t⟩
    · exact absurd (by simpa using congrArg List.reverse hr) hbase_ne
    · exact ⟨a, t, rfl⟩
  have hcb_noslash : cb ≠ '/' := by
    have : cb ∈ (nm ++ ext).reverse := hcb ▸ List.mem_cons_self _ _
    exact hbase_noslash cb (List.mem_reverse.mp this)
  have hbase_dd : nm ++ ext ≠ ['.', '.'] := hbase.2.2.2
  have hnm_len : 0 < nm.length := List.length_pos.mpr hnm
  -- the three shapes the extension scan can take on the reversed base
  have hext3 :
      (ext = [] ∧ (nm ++ ext).reverse.takeWhile (fun c => c ≠ '.')
        = (nm ++ ext).reverse) ∨
      (ext = [] ∧ ∃ nmt, nm = '.' :: nmt ∧
        (nm ++ ext).reverse.takeWhile (fun c => c ≠ '.') = nmt.reverse) ∨
      (∃ t, ext = '.' :: t ∧
        (nm ++ ext).reverse.takeWhile (fun c => c ≠ '.') = t.reverse) := by
    rcases hcase with ⟨hE, htail⟩ | ⟨t, hE, ht⟩
    · subst hE
      obtain ⟨n0, nmt, rfl⟩ : ∃ n0 nmt, nm = n0 :: nmt := by
        rcases hn : nm with _ | ⟨a, t2⟩
        · exact absurd hn hnm
        · exact ⟨a, t2, rfl⟩
      by_cases hdot : n0 = '.'
      · subst hdot
        have htail2 : ∀ c ∈ nmt, c ≠ '.' := fun c hc => htail c hc
        refine Or.inr (Or.inl ⟨rfl, nmt, rfl, ?_⟩)
        simp only [List.append_nil, List.reverse_cons]
        rw [List.takeWhile_append_of_pos
          (fun a ha => decide_eq_true (htail2 a (List.mem_reverse.mp ha)))]
        rw [List.takeWhile_cons_of_neg (by simp)]
        simp
      · refine Or.inl ⟨rfl, ?_⟩
        refine takeWhile_of_all _ _ ?_
        intro a ha
        simp only [List.append_nil] at ha
        refine decide_eq_true ?_
        rcases List.mem_cons.mp (List.mem_reverse.mp ha) with rfl | h2
        · exact hdot
        · exact htail a h2
    · subst hE
      refine Or.inr (Or.inr ⟨t, rfl, ?_⟩)
      have hrev2 : (nm ++ '.' :: t).reverse = t.reverse ++ '.' :: nm.reverse := by
        rw [List.reverse_append]
        simp
      rw [hrev2]
      rw [List.takeWhile_append_of_pos
        (fun a ha => decide_eq_true (ht a (List.mem_reverse.mp ha)))]
      rw [List.takeWhile_cons_of_neg (by simp)]
      simp
  obtain ⟨n0, nmt0, hnmeq⟩ : ∃ n0 nmt0, nm = n0 :: nmt0 := by
    rcases hn : nm with _ | ⟨a, t2⟩
    · exact absurd hn hnm
    · exact ⟨a, t2, rfl⟩
  have hn0 : n0 ≠ '/' := by
    refine hbase_noslash n0 ?_
    rw [hnmeq]
    exact List.mem_append_left ext (List.mem_cons_self _ _)
  have hAbsRel : decide ((nm ++ ext).head? = some '/') = false := by
    refine decide_eq_false ?_
    intro hx
    rw [hnmeq, List.cons_append, List.head?_cons] at hx
    injection hx with hx2
    exact hn0 hx2
  have e2 : (nm ++ ext).reverse.takeWhile (fun c => c ≠ '/')
      = (nm ++ ext).reverse :=
    takeWhile_of_all _ _
      (fun a ha => decide_eq_true (hbase_noslash a (List.mem_reverse.mp ha)))
  have e3 : (nm ++ ext).reverse.dropWhile (fun c => c ≠ '/') = [] :=
    dropWhile_of_all _ _
      (fun a ha => decide_eq_true (hbase_noslash a (List.mem_reverse.mp ha)))
  rcases hrt with rfl | rfl
  · rcases dsegs with _ | ⟨d0, dt⟩
    · show nodeParse (nm ++ ext) = ⟨[], nm, ext⟩
      have e1 : (nm ++ ext).reverse.dropWhile (fun c => c = '/')
          = (nm ++ ext).reverse := by
        rw [hcb]
        exact List.dropWhile_cons_of_neg (by simp [hcb_noslash])
      unfold nodeParse
      rw [if_neg hbase_ne]
      simp only [e1, e2, e3, hAbsRel, List.reverse_reverse]
      rcases hext3 with ⟨hE, htake⟩ | ⟨hE, nmt, hnm2, htake⟩ | ⟨t, hE, htake⟩
      · subst hE
        simp only [List.append_nil] at htake ⊢
        rw [htake]
        simp
      · subst hE
        simp only [List.append_nil] at htake ⊢
        rw [htake]
        have hlen1 : (nmt.reverse).length ≠ (nm.reverse).length := by
          rw [hnm2]
          simp only [List.length_reverse, List.length_cons]
          omega
        rw [if_neg hlen1]
        have hi0 : (nm.reverse).length - (nmt.reverse).length - 1 = 0 := by
          rw [hnm2]
          simp only [List.length_reverse, List.length_cons]
          omega
        rw [if_pos (Or.inl hi0)]
        simp
      · subst hE
        rw [htake]
        have hlen1 : (t.reverse).length ≠ ((nm ++ '.' :: t).reverse).length := by
          simp only [List.length_reverse, List.length_append, List.length_cons]
          omega
        rw [if_neg hlen1]
        have hi0 : ¬(((nm ++ '.' :: t).reverse).length - (t.reverse).length - 1 = 0
            ∨ (nm ++ '.' :: t) = ['.', '.']) := by
          intro hc
          rcases hc with hc | hc
          · revert hc
            simp only [List.length_reverse, List.length_append, List.length_cons]
            omega
          · exact hbase_dd hc
        rw [if_neg hi0]
        have hi : ((nm ++ '.' :: t).reverse).length - (t.reverse).length - 1
            = nm.length := by
          simp only [List.length_reverse, List.length_append, List.length_cons]
          omega
        rw [hi, List.take_left' rfl, List.drop_left' rfl]
        simp
    · have hd0 : plainSeg d0 := hd d0 (List.mem_cons_self _ _)
      have hD_ne : interc '/' (d0 :: dt) ≠ [] := interc_ne_nil '/' d0 dt hd0.1
      have hApp : interc '/' ((d0 :: dt) ++ [nm ++ ext])
          = interc '/' (d0 :: dt) ++ '/' :: (nm ++ ext) :=
        interc_append_last '/' (d0 :: dt) _ (by simp)
      have hp_ne : interc '/' ((d0 :: dt) ++ [nm ++ ext]) ≠ [] := by
        rw [hApp]
        intro hc
        exact hD_ne (List.append_eq_nil.mp hc).1
      have hrev : (interc '/' ((d0 :: dt) ++ [nm ++ ext])).reverse
          = (nm ++ ext).reverse ++ '/' :: (interc '/' (d0 :: dt)).reverse := by
        rw [hApp, List.reverse_append, List.reverse_cons]
        rw [List.append_assoc]
        rfl
      have f1 : (interc '/' ((d0 :: dt) ++ [nm ++ ext])).reverse.dropWhile
          (fun c => c = '/')
          = (nm ++ ext).reverse ++ '/' :: (interc '/' (d0 :: dt)).reverse := by
        rw [hrev, hcb, List.cons_append]
        exact List.dropWhile_cons_of_neg (by simp [hcb_noslash])
      have f2 : ((nm ++ ext).reverse
            ++ '/' :: (interc '/' (d0 :: dt)).reverse).takeWhile
              (fun c => c ≠ '/')
          = (nm ++ ext).reverse := by
        rw [List.takeWhile_append_of_pos
          (fun a ha => decide_eq_true (hbase_noslash a (List.mem_reverse.mp ha)))]
        rw [List.takeWhile_cons_of_neg (by simp)]
        simp
      have f3 : ((nm ++ ext).reverse
            ++ '/' :: (interc '/' (d0 :: dt)).reverse).dropWhile
              (fun c => c ≠ '/')
          = '/' :: (interc '/' (d0 :: dt)).reverse := by
        rw [List.dropWhile_append_of_pos
          (fun a ha => decide_eq_true (hbase_noslash a (List.mem_reverse.mp ha)))]
        exact List.dropWhile_cons_of_neg (by simp)
      show nodeParse (interc '/' ((d0 :: dt) ++ [nm ++ ext]))
        = ⟨interc '/' (d0 :: dt), nm, ext⟩
      unfold nodeParse
      rw [if_neg hp_ne]
      simp only [f1, f2, f3, List.reverse_reverse, List.drop_succ_cons,
        List.drop_zero, hAbsRel]
      rcases hext3 with ⟨hE, htake⟩ | ⟨hE, nmt, hnm2, htake⟩ | ⟨t, hE, htake⟩
      · subst hE
        simp only [List.append_nil] at htake ⊢
        rw [htake]
        simp [hD_ne]
      · subst hE
        simp only [List.append_nil] at htake ⊢
        rw [htake]
        have hlen1 : (nmt.reverse).length ≠ (nm.reverse).length := by
          rw [hnm2]
          simp only [List.length_reverse, List.length_cons]
          omega
        rw [if_neg hlen1]
        have hi0 : (nm.reverse).length - (nmt.reverse).length - 1 = 0 := by
          rw [hnm2]
          simp only [List.length_reverse, List.length_cons]
          omega
        rw [if_pos (Or.inl hi0)]
        simp [hD_ne]
      · subst hE
        rw [htake]
        have hlen1 : (t.reverse).length ≠ ((nm ++ '.' :: t).reverse).length := by
          simp only [List.length_reverse, List.length_append, List.length_cons]
          omega
        rw [if_neg hlen1]
        have hi0 : ¬(((nm ++ '.' :: t).reverse).length - (t.reverse).length - 1 = 0
            ∨ (nm ++ '.' :: t) = ['.', '.']) := by
          intro hc
          rcases hc with hc | hc
          · revert hc
            simp only [List.length_reverse, List.length_append, List.length_cons]
            omega
          · exact hbase_dd hc
        rw [if_neg hi0]
        have hi : ((nm ++ '.' :: t).reverse).length - (t.reverse).length - 1
            = nm.length := by
          simp only [List.length_reverse, List.length_append, List.length_cons]
          omega
        rw [hi, List.take_left' rfl, List.drop_left' rfl]
        simp [hD_ne]
  · rcases dsegs with _ | ⟨d0, dt⟩
    · show nodeParse ('/' :: (nm ++ ext)) = ⟨['/'], nm, ext⟩
      have hp_ne : ('/' :: (nm ++ ext)) ≠ [] := by simp
      have hprev : ('/' :: (nm ++ ext)).reverse
          = (nm ++ ext).reverse ++ ['/'] := by
        simp
      have hAbsC : decide (('/' :: (nm ++ ext)).head? = some '/') = true := by
        rw [List.head?_cons]
        exact decide_eq_true rfl
      have g1 : ((nm ++ ext).reverse ++ ['/']).dropWhile (fun c => c = '/')
          = (nm ++ ext).reverse ++ ['/'] := by
        rw [hcb, List.cons_append]
        exact List.dropWhile_cons_of_neg (by simp [hcb_noslash])
      have g2 : ((nm ++ ext).reverse ++ ['/']).takeWhile (fun c => c ≠ '/')
          = (nm ++ ext).reverse := by
        rw [List.takeWhile_append_of_pos
          (fun a ha => decide_eq_true (hbase_noslash a (List.mem_reverse.mp ha)))]
        rw [List.takeWhile_cons_of_neg (by simp)]
        simp
      have g3 : ((nm ++ ext).reverse ++ ['/']).dropWhile (fun c => c ≠ '/')
          = ['/'] := by
        rw [List.dropWhile_append_of_pos
          (fun a ha => decide_eq_true (hbase_noslash a (List.mem_reverse.mp ha)))]
        exact List.dropWhile_cons_of_neg (by simp)
      unfold nodeParse
      rw [if_neg hp_ne]
      simp only [hprev, g1, g2, g3, hAbsC, List.reverse_reverse,
        List.drop_succ_cons, List.drop_zero, List.reverse_nil]
      rcases hext3 with ⟨hE, htake⟩ | ⟨hE, nmt, hnm2, htake⟩ | ⟨t, hE, htake⟩
      · subst hE
        simp only [List.append_nil] at htake ⊢
        rw [htake]
        simp
      · subst hE
        simp only [List.append_nil] at htake ⊢
        rw [htake]
        have hlen1 : (nmt.reverse).length ≠ (nm.reverse).length := by
          rw [hnm2]
          simp only [List.length_reverse, List.length_cons]
          omega
        rw [if_neg hlen1]
        have hi0 : (nm.reverse).length - (nmt.reverse).length - 1 = 0 := by
          rw [hnm2]
          simp only [List.length_reverse, List.length_cons]
          omega
        rw [if_pos (Or.inl hi0)]
        simp
      · subst hE
        rw [htake]
        have hlen1 : (t.reverse).length ≠ ((nm ++ '.' :: t).reverse).length := by
          simp only [List.length_reverse, List.length_append, List.length_cons]
          omega
        rw [if_neg hlen1]
        have hi0 : ¬(((nm ++ '.' :: t).reverse).length - (t.reverse).length - 1 = 0
            ∨ (nm ++ '.' :: t) = ['.', '.']) := by
          intro hc
          rcases hc with hc | hc
          · revert hc
            simp only [List.length_reverse, List.length_append, List.length_cons]
            omega
          · exact hbase_dd hc
        rw [if_neg hi0]
        have hi : ((nm ++ '.' :: t).reverse).length - (t.reverse).length - 1
            = nm.length := by
          simp only [List.length_reverse, List.length_append, List.length_cons]
          omega
        rw [hi, List.take_left' rfl, List.drop_left' rfl]
        simp
    · have hd0 : plainSeg d0 := hd d0 (List.mem_cons_self _ _)
      have hD_ne : interc '/' (d0 :: dt) ≠ [] := interc_ne_nil '/' d0 dt hd0.1
      have hApp : interc '/' ((d0 :: dt) ++ [nm ++ ext])
          = interc '/' (d0 :: dt) ++ '/' :: (nm ++ ext) :=
        interc_append_last '/' (d0 :: dt) _ (by simp)
      have hPeq : ['/'] ++ interc '/' ((d0 :: dt) ++ [nm ++ ext])
          = '/' :: (interc '/' (d0 :: dt) ++ '/' :: (nm ++ ext)) := by
        rw [hApp]
        rfl
      rw [hPeq]
      have hp_ne : ('/' :: (interc '/' (d0 :: dt) ++ '/' :: (nm ++ ext)))
          ≠ [] := by simp
      have hrevD : ('/' :: (interc '/' (d0 :: dt) ++ '/' :: (nm ++ ext))).reverse
          = (nm ++ ext).reverse
              ++ '/' :: ((interc '/' (d0 :: dt)).reverse ++ ['/']) := by
        rw [List.reverse_cons, List.reverse_append, List.reverse_cons]
        simp
      have hAbsD : decide
          (('/' :: (interc '/' (d0 :: dt) ++ '/' :: (nm ++ ext))).head?
            = some '/') = true := by
        rw [List.head?_cons]
        exact decide_eq_true rfl
      have k1 : ((nm ++ ext).reverse
            ++ '/' :: ((interc '/' (d0 :: dt)).reverse ++ ['/'])).dropWhile
              (fun c => c = '/')
          = (nm ++ ext).reverse
              ++ '/' :: ((interc '/' (d0 :: dt)).reverse ++ ['/']) := by
        rw [hcb, List.cons_append]
        exact List.dropWhile_cons_of_neg (by simp [hcb_noslash])
      have k2 : ((nm ++ ext).reverse
            ++ '/' :: ((interc '/' (d0 :: dt)).reverse ++ ['/'])).takeWhile
              (fun c => c ≠ '/')
          = (nm ++ ext).reverse := by
        rw [List.takeWhile_append_of_pos
          (fun a ha => decide_eq_true (hbase_noslash a (List.mem_reverse.mp ha)))]
        rw [List.takeWhile_cons_of_neg (by simp)]
        simp
      have k3 : ((nm ++ ext).reverse
            ++ '/' :: ((interc '/' (d0 :: dt)).reverse ++ ['/'])).dropWhile
              (fun c => c ≠ '/')
          = '/' :: ((interc '/' (d0 :: dt)).reverse ++ ['/']) := by
        rw [List.dropWhile_append_of_pos
          (fun a ha => decide_eq_true (hbase_noslash a (List.mem_reverse.mp ha)))]
        exact List.dropWhile_cons_of_neg (by simp)
      have k4 : ((interc '/' (d0 :: dt)).reverse ++ ['/']).reverse
          = '/' :: interc '/' (d0 :: dt) := by
        simp
      unfold nodeParse
      rw [if_neg hp_ne]
      simp only [hrevD, k1, k2, k3, k4, hAbsD, List.reverse_reverse,
        List.drop_succ_cons, List.drop_zero]
      rcases hext3 with ⟨hE, htake⟩ | ⟨hE, nmt, hnm2, htake⟩ | ⟨t, hE, htake⟩
      · subst hE
        simp only [List.append_nil] at htake ⊢
        rw [htake]
        simp
      · subst hE
        simp only [List.append_nil] at htake ⊢
        rw [htake]
        have hlen1 : (nmt.reverse).length ≠ (nm.reverse).length := by
          rw [hnm2]
          simp only [List.length_reverse, List.length_cons]
          omega
        rw [if_neg hlen1]
        have hi0 : (nm.reverse).length - (nmt.reverse).length - 1 = 0 := by
          rw [hnm2]
          simp only [List.length_reverse, List.length_cons]
          omega
        rw [if_pos (Or.inl hi0)]
        simp
      · subst hE
        rw [htake]
        have hlen1 : (t.reverse).length ≠ ((nm ++ '.' :: t).reverse).length := by
          simp only [List.length_reverse, List.length_append, List.length_cons]
          omega
        rw [if_neg hlen1]
        have hi0 : ¬(((nm ++ '.' :: t).reverse).length - (t.reverse).length - 1 = 0
            ∨ (nm ++ '.' :: t) = ['.', '.']) := by
          intro hc
          rcases hc with hc | hc
          · revert hc
            simp only [List.length_reverse, List.length_append, List.length_cons]
            omega
          · exact hbase_dd hc
        rw [if_neg hi0]
        have hi : ((nm ++ '.' :: t).reverse).length - (t.reverse).length - 1
            = nm.length := by
          simp only [List.length_reverse, List.length_append, List.length_cons]
          omega
        rw [hi, List.take_left' rfl, List.drop_left' rfl]
        simp

theorem isHexLower_ne_dash (c : Char) (h : isHexLower c = true) : c ≠ '-' := by
  intro hc
  rw [hc] at h
  exact absurd h (by decide)

theorem isHexLower_ne_slash (c : Char) (h : isHexLower c = true) : c ≠ '/' := by
  intro hc
  rw [hc] at h
  exact absurd h (by decide)

/-- C2 (amended): for a key that is a normalized path, relative or
absolute — slash separated segments that are nonempty, slash-free and
none of them the dot or double-dot segment — upload of an existing file
not previously recorded in written_files returns the key with a dot and
the first uuid group (8 lowercase hex characters) inserted between the
node-parsed base name and extension of the final segment (same directory,
same extension; the extension starts at the last dot of the final segment
when that dot is not its first character, and multi-dot names such as
file.tar.gz split as name file.tar with extension .gz), and stores the
file bytes under that unique key in the R2 store. (For keys containing
empty, dot or double-dot segments the returned key is the path.join of
the parsed pieces, which normalizes such segments away, so the plain
insertion reading fails; see the counterexample.) -/
theorem claim_C2
    (st : storageInst) (w : StoreWorld) (bucket fp u : Chars) (data : Bytes)
    (rt : Chars) (dsegs : List Chars) (nm ext useg urest : Chars)
    (hrt : rt = [] ∨ rt = ['/'])
    (hd : ∀ s ∈ dsegs, plainSeg s)
    (hbase : plainSeg (nm ++ ext))
    (hnm : nm ≠ [])
    (hcase : (ext = [] ∧ ∀ c ∈ nm.drop 1, c ≠ '.')
           ∨ (∃ t, ext = '.' :: t ∧ ∀ c ∈ t, c ≠ '.'))
    (hu : u = useg ++ '-' :: urest) (hlen : useg.length = 8)
    (hhex : ∀ c ∈ useg, isHexLower c = true)
    (hh : st.hasHandle = true)
    (hfp : fp ∉ st.written_files)
    (hfile : getKV w.fs fp = some data) :
    storage.upload st w bucket (rt ++ interc '/' (dsegs ++ [nm ++ ext])) fp u
      = .ok (rt ++ interc '/' (dsegs ++ [nm]) ++ '.' :: useg ++ ext,
          ⟨w.fs, setKV w.r2
            (rt ++ interc '/' (dsegs ++ [nm]) ++ '.' :: useg ++ ext) data⟩) ∧
    rt ++ interc '/' (dsegs ++ [nm ++ ext])
      = rt ++ interc '/' (dsegs ++ [nm]) ++ ext ∧
    (uuidFirstSeg u).length = 8 ∧
    (∀ c ∈ uuidFirstSeg u, isHexLower c = true) ∧
    getKV (setKV w.r2
        (rt ++ interc '/' (dsegs ++ [nm]) ++ '.' :: useg ++ ext) data)
      (rt ++ interc '/' (dsegs ++ [nm]) ++ '.' :: useg ++ ext)
      = some data := by
  have husg : uuidFirstSeg u = useg := by
    rw [hu]
    unfold uuidFirstSeg
    rw [splitCh_append_sepFree '-' useg urest
      (fun c hc => isHexLower_ne_dash c (hhex c hc))]
    rfl
  have hb : plainSeg (nm ++ '.' :: (useg ++ ext)) := by
    refine ⟨?_, ?_, ?_, ?_⟩
    · intro hc
      exact hnm (List.append_eq_nil.mp hc).1
    · intro hc
      rcases List.mem_append.mp hc with h2 | h2
      · exact hbase.2.1 (List.mem_append_left ext h2)
      · rcases List.mem_cons.mp h2 with h3 | h3
        · exact absurd h3 (by decide)
        · rcases List.mem_append.mp h3 with h4 | h4
          · exact isHexLower_ne_slash '/' (hhex '/' h4) rfl
          · exact hbase.2.1 (List.mem_append_right nm h4)
    · intro hc
      have hlc := congrArg List.length hc
      simp only [List.length_append, List.length_cons, List.length_nil,
        hlen] at hlc
      have hnml : 0 < nm.length := List.length_pos.mpr hnm
      omega
    · intro hc
      have hlc := congrArg List.length hc
      simp only [List.length_append, List.length_cons, List.length_nil,
        hlen] at hlc
      have hnml : 0 < nm.length := List.length_pos.mpr hnm
      omega
  have hparse := nodeParse_decomp rt dsegs nm ext hrt hd hbase hnm hcase
  have hkey1 : rt ++ interc '/' (dsegs ++ [nm ++ '.' :: (useg ++ ext)])
      = rt ++ (interc '/' (dsegs ++ [nm]) ++ '.' :: (useg ++ ext)) := by
    rw [interc_concat_append '/' dsegs nm ('.' :: (useg ++ ext))]
  have hkey2 : rt ++ interc '/' (dsegs ++ [nm ++ ext])
      = rt ++ interc '/' (dsegs ++ [nm]) ++ ext := by
    rw [interc_concat_append '/' dsegs nm ext, List.append_assoc]
  refine ⟨?_, hkey2, ?_, ?_, getKV_setKV_self _ _ _⟩
  · unfold storage.upload
    simp only [if_neg hfp, hfile]
    unfold storage.upload_stream storage.unique_name
    rw [hparse]
    dsimp only
    simp only [husg, List.append_assoc, List.cons_append]
    rw [nodeJoin2_decomp_gen rt dsegs (nm ++ '.' :: (useg ++ ext)) hrt hd hb,
      hkey1]
    simp only [hh, if_true, List.append_assoc, List.cons_append]
  · rw [husg]; exact hlen
  · rw [husg]; exact hhex

theorem claim_C2_witness :
    storage.upload ⟨0, true, []⟩ ⟨[(str2c "in.bin", [9, 9])], []⟩ []
      (([] : Chars)
        ++ interc '/' ([str2c "output"] ++ [str2c "file.tar" ++ str2c ".gz"]))
      (str2c "in.bin") (str2c "0a1b2c3d-e5f6")
      = .ok (([] : Chars) ++ interc '/' ([str2c "output"] ++ [str2c "file.tar"])
            ++ '.' :: str2c "0a1b2c3d" ++ str2c ".gz",
          ⟨[(str2c "in.bin", [9, 9])],
            setKV ([] : List (Chars × Bytes))
              (([] : Chars)
                ++ interc '/' ([str2c "output"] ++ [str2c "file.tar"])
                ++ '.' :: str2c "0a1b2c3d" ++ str2c ".gz") [9, 9]⟩) ∧
    ([] : Chars)
        ++ interc '/' ([str2c "output"] ++ [str2c "file.tar" ++ str2c ".gz"])
      = ([] : Chars) ++ interc '/' ([str2c "output"] ++ [str2c "file.tar"])
          ++ str2c ".gz" ∧
    (uuidFirstSeg (str2c "0a1b2c3d-e5f6")).length = 8 ∧
    (∀ c ∈ uuidFirstSeg (str2c "0a1b2c3d-e5f6"), isHexLower c = true) ∧
    getKV (setKV ([] : List (Chars × Bytes))
        (([] : Chars) ++ interc '/' ([str2c "output"] ++ [str2c "file.tar"])
          ++ '.' :: str2c "0a1b2c3d" ++ str2c ".gz") [9, 9])
      (([] : Chars) ++ interc '/' ([str2c "output"] ++ [str2c "file.tar"])
        ++ '.' :: str2c "0a1b2c3d" ++ str2c ".gz") = some [9, 9] :=
  claim_C2 ⟨0, true, []⟩ ⟨[(str2c "in.bin", [9, 9])], []⟩ []
    (str2c "in.bin") (str2c "0a1b2c3d-e5f6") [9, 9]
    [] [str2c "output"] (str2c "file.tar") (str2c ".gz")
    (str2c "0a1b2c3d") (str2c "e5f6")
    (Or.inl rfl) (by decide) (by decide) (by decide)
    (Or.inr ⟨str2c "gz", rfl, by decide⟩)
    (by decide) (by decide) (by decide) rfl (by decide) rfl

/-- C2 counterexample: at the concrete key a/../b.txt the unique key
returned by upload is b.0a1b2c3d.txt — path.join has normalized away the
a/.. prefix — and not the claimed key-with-inserted-segment
a/../b.0a1b2c3d.txt, so the plain insertion reading of the claim fails
for keys containing double-dot segments. -/
theorem claim_C2_counterexample :
    storage.upload ⟨0, true, []⟩ ⟨[(str2c "f", [7])], []⟩ []
      (str2c "a/../b.txt") (str2c "f") (str2c "0a1b2c3d-e5f6")
      = .ok (str2c "b.0a1b2c3d.txt",
          ⟨[(str2c "f", [7])], [(str2c "b.0a1b2c3d.txt", [7])]⟩) ∧
    str2c "b.0a1b2c3d.txt" ≠ str2c "a/../b.0a1b2c3d.txt" := by
  constructor
  · rfl
  · decide

end SBS
